import Mathlib

/-!
Verification development for the `dashboard-pipliner` server.

The Python sources are shallowly embedded:

* `src/server/app/protocol.py` / `src/server/server.py` — the framed JSON
  protocol (`AlgerMessage.parse`, `AlgerMessage.to_json`) over a concrete
  JSON value type with an executable text codec modelling the host
  language's `json.loads` / `json.dumps` pair (integral numbers; string
  escapes restricted to backslash and quote, which both sides of the
  modelled pair treat consistently).
* `src/server/server.py` — the per-connection loop `alger_handler` as a
  step function over the `last_message_id` counter, emitting a trace of
  accepted inbound ids and sent frames.
* `src/server/app/dag/engine.py` — graph build, validation, Kahn and
  DFS-postorder topological orders (modelling the `networkx` calls the
  engine makes), and the sequential execution fold, parameterised by the
  node-kind registry exactly as in the source.
* `src/server/app/services.py` and
  `src/server/app/persistence/database.py` — the execution rows of the
  persistence gateway and the handlers for stop-execution (106),
  request-output (107) and get-user-data (101).
-/

/-! ### JSON values

Python's decoded JSON values (`dict` / `list` / `str` / `int` / `bool` /
`None`), as a mutual inductive family so that all recursion below is
structural.  Numbers are modelled as integers: every header field of the
protocol is integral and no claim depends on float payloads. -/

mutual

inductive Json where
  | null : Json
  | bool (b : Bool) : Json
  | num (n : Int) : Json
  | str (s : String) : Json
  | arr (xs : JsonA) : Json
  | obj (fs : JsonO) : Json
  deriving DecidableEq

inductive JsonA where
  | nil : JsonA
  | cons (hd : Json) (tl : JsonA) : JsonA
  deriving DecidableEq

inductive JsonO where
  | nil : JsonO
  | cons (k : String) (v : Json) (tl : JsonO) : JsonO
  deriving DecidableEq

end

/-- Lookup in a decoded JSON object.  Python's `json.loads` keeps the last
occurrence of a duplicated key, and `dict.get` then finds it; so the lookup
prefers the rightmost binding. -/
def JsonO.get : JsonO → String → Option Json
  | .nil, _ => none
  | .cons k v tl, key =>
      match JsonO.get tl key with
      | some r => some r
      | none => if k = key then some v else none

/-- Python truthiness of a decoded JSON value (`if not x`). -/
def Json.truthy : Json → Bool
  | .null => false
  | .bool b => b
  | .num n => n ≠ 0
  | .str s => s ≠ ""
  | .arr .nil => false
  | .arr (.cons _ _) => true
  | .obj .nil => false
  | .obj (.cons _ _ _) => true

/-! ### Decimal numerals

Executable rendering of integers, with the digit characters recoverable by
folding; models Python's `str`/`int` on integral values and the numeral
part of the JSON codec. -/

def digitChar (d : Nat) : Char := Char.ofNat (48 + d)

def digitVal (c : Char) : Nat := c.toNat - 48

def natChars (n : Nat) : List Char :=
  if _h : n < 10 then [digitChar n]
  else natChars (n / 10) ++ [digitChar (n % 10)]
  decreasing_by exact Nat.div_lt_self (by omega) (by omega)

def intChars (i : Int) : List Char :=
  if i < 0 then '-' :: natChars i.natAbs else natChars i.toNat

def isDigitCh (c : Char) : Bool := 48 ≤ c.toNat && c.toNat ≤ 57

theorem digitChar_val {d : Nat} (h : d < 10) : digitVal (digitChar d) = d := by
  interval_cases d <;> decide

theorem digitChar_isDigit {d : Nat} (h : d < 10) : isDigitCh (digitChar d) = true := by
  interval_cases d <;> decide

theorem natChars_ne_nil (n : Nat) : natChars n ≠ [] := by
  rw [natChars]
  split <;> simp

theorem natChars_digits (n : Nat) : ∀ c ∈ natChars n, isDigitCh c = true := by
  induction n using Nat.strongRecOn with
  | _ n ih =>
    rw [natChars]
    split
    · intro c hc
      rw [List.mem_singleton] at hc
      exact hc ▸ digitChar_isDigit (by omega)
    · intro c hc
      rw [List.mem_append] at hc
      rcases hc with hc | hc
      · exact ih (n / 10) (Nat.div_lt_self (by omega) (by omega)) c hc
      · rw [List.mem_singleton] at hc
        exact hc ▸ digitChar_isDigit (Nat.mod_lt _ (by omega))

theorem natChars_foldl (n : Nat) :
    (natChars n).foldl (fun a c => a * 10 + digitVal c) 0 = n := by
  induction n using Nat.strongRecOn with
  | _ n ih =>
    rw [natChars]
    split
    · rename_i h
      simp [digitChar_val h]
    · rename_i h
      rw [List.foldl_append, ih (n / 10) (Nat.div_lt_self (by omega) (by omega))]
      simp [digitChar_val (Nat.mod_lt n (by omega))]
      omega

/-! ### JSON text encoder

Models `json.dumps` on the values above.  Output contains no whitespace
(Python's default separators add a space; the codec claims are insensitive
to it, and both directions of the modelled pair agree).  A string escapes
exactly the quote and the backslash. -/

def escCh (c : Char) : List Char :=
  if c = '"' ∨ c = '\\' then ['\\', c] else [c]

def escStr : List Char → List Char
  | [] => []
  | c :: cs => escCh c ++ escStr cs

def quoteStr (s : String) : List Char := '"' :: (escStr s.data ++ ['"'])

mutual

def encV : Json → List Char
  | .num i => intChars i
  | .str s => quoteStr s
  | .null => ['n', 'u', 'l', 'l']
  | .bool false => ['f', 'a', 'l', 's', 'e']
  | .bool true => ['t', 'r', 'u', 'e']
  | .arr .nil => ['[', ']']
  | .arr (.cons x tl) => '[' :: (encV x ++ encA tl)
  | .obj .nil => ['\x7b', '\x7d']
  | .obj (.cons k v tl) => '\x7b' :: (quoteStr k ++ ':' :: (encV v ++ encO tl))

def encA : JsonA → List Char
  | .nil => [']']
  | .cons x tl => ',' :: (encV x ++ encA tl)

def encO : JsonO → List Char
  | .nil => ['\x7d']
  | .cons k v tl => ',' :: (quoteStr k ++ ':' :: (encV v ++ encO tl))

end

def jdump (j : Json) : String := String.mk (encV j)

/-! ### JSON text decoder

Models `json.loads`, restricted to the grammar the encoder emits (no
whitespace, integral numbers, quote/backslash escapes).  Structural on a
fuel argument so everything is executable and total. -/

def scanStr (acc : List Char) : List Char → Option (String × List Char)
  | [] => none
  | c :: r =>
      if c = '"' then some (String.mk acc.reverse, r)
      else if c = '\\' then
        match r with
        | [] => none
        | c2 :: r2 => scanStr (c2 :: acc) r2
      else scanStr (c :: acc) r

def scanDigits : List Char → List Char × List Char
  | c :: cs =>
      if isDigitCh c then
        let (ds, r) := scanDigits cs
        (c :: ds, r)
      else ([], c :: cs)
  | [] => ([], [])

def scanNat (cs : List Char) : Option (Nat × List Char) :=
  let (ds, r) := scanDigits cs
  if ds.isEmpty then none
  else some (ds.foldl (fun a c => a * 10 + digitVal c) 0, r)

def scanInt : List Char → Option (Int × List Char)
  | [] => none
  | c :: r =>
      if c = '-' then
        match scanNat r with
        | some (n, r1) => some (-(n : Int), r1)
        | none => none
      else
        match scanNat (c :: r) with
        | some (n, r1) => some ((n : Int), r1)
        | none => none

mutual

def scanV : Nat → List Char → Option (Json × List Char)
  | 0, _ => none
  | fuel + 1, cs =>
      match cs with
      | [] => none
      | c :: r =>
          if c = 'n' then
            match r with
            | 'u' :: 'l' :: 'l' :: r1 => some (.null, r1)
            | _ => none
          else if c = 't' then
            match r with
            | 'r' :: 'u' :: 'e' :: r1 => some (.bool true, r1)
            | _ => none
          else if c = 'f' then
            match r with
            | 'a' :: 'l' :: 's' :: 'e' :: r1 => some (.bool false, r1)
            | _ => none
          else if c = '"' then
            match scanStr [] r with
            | some (s, r1) => some (.str s, r1)
            | none => none
          else if c = '[' then
            if r.head? = some ']' then some (.arr .nil, r.tail)
            else
              match scanV fuel r with
              | some (x, r3) =>
                  match scanA fuel r3 with
                  | some (tl, r4) => some (.arr (.cons x tl), r4)
                  | none => none
              | none => none
          else if c = '\x7b' then
            if r.head? = some '\x7d' then some (.obj .nil, r.tail)
            else if r.head? = some '"' then
              match scanStr [] r.tail with
              | some (k, r3) =>
                  if r3.head? = some ':' then
                    match scanV fuel r3.tail with
                    | some (v, r5) =>
                        match scanO fuel r5 with
                        | some (tl, r6) => some (.obj (.cons k v tl), r6)
                        | none => none
                    | none => none
                  else none
              | none => none
            else none
          else if c = '-' ∨ isDigitCh c then
            match scanInt cs with
            | some (i, r1) => some (.num i, r1)
            | none => none
          else none

def scanA : Nat → List Char → Option (JsonA × List Char)
  | 0, _ => none
  | fuel + 1, cs =>
      match cs with
      | [] => none
      | c :: r =>
          if c = ']' then some (.nil, r)
          else if c = ',' then
            match scanV fuel r with
            | some (x, r1) =>
                match scanA fuel r1 with
                | some (tl, r2) => some (.cons x tl, r2)
                | none => none
            | none => none
          else none

def scanO : Nat → List Char → Option (JsonO × List Char)
  | 0, _ => none
  | fuel + 1, cs =>
      match cs with
      | [] => none
      | c :: r =>
          if c = '\x7d' then some (.nil, r)
          else if c = ',' then
            if r.head? = some '"' then
              match scanStr [] r.tail with
              | some (k, r2) =>
                  if r2.head? = some ':' then
                    match scanV fuel r2.tail with
                    | some (v, r4) =>
                        match scanO fuel r4 with
                        | some (tl, r5) => some (.cons k v tl, r5)
                        | none => none
                    | none => none
                  else none
              | none => none
            else none
          else none

end

/-- Models `json.loads`: the whole input must be consumed. -/
def jload (s : String) : Option Json :=
  match scanV (s.length + 1) s.data with
  | some (j, []) => some j
  | _ => none

/-! ### Codec round trip

The decoder inverts the encoder: `jload (jdump j) = some j`.  The lemmas
below mirror the grammar: strings, numerals, then the mutual value cases
by structural induction, threading a fuel bound through a size measure. -/

def delimOk : List Char → Bool
  | [] => true
  | c :: _ => !(isDigitCh c)

theorem scanStr_cons (acc : List Char) (c : Char) (r : List Char) :
    scanStr acc (c :: r) =
      if c = '"' then some (String.mk acc.reverse, r)
      else if c = '\\' then
        match r with
        | [] => none
        | c2 :: r2 => scanStr (c2 :: acc) r2
      else scanStr (c :: acc) r := by
  rw [scanStr.eq_def]

theorem scanStr_esc (cs : List Char) :
    ∀ (acc rest : List Char),
      scanStr acc (escStr cs ++ '"' :: rest) = some (String.mk (acc.reverse ++ cs), rest) := by
  induction cs with
  | nil =>
    intro acc rest
    simp [escStr, scanStr_cons]
  | cons c cs ih =>
    intro acc rest
    by_cases hc : c = '"' ∨ c = '\\'
    · rw [show escStr (c :: cs) = '\\' :: c :: escStr cs from by simp [escStr, escCh, hc]]
      rw [List.cons_append, List.cons_append, scanStr_cons]
      rw [if_neg (by decide), if_pos rfl]
      exact (ih (c :: acc) rest).trans (by simp)
    · push_neg at hc
      rw [show escStr (c :: cs) = c :: escStr cs from by simp [escStr, escCh, hc.1, hc.2]]
      rw [List.cons_append, scanStr_cons, if_neg hc.1, if_neg hc.2, ih]
      simp

theorem scanDigits_cons (c : Char) (cs : List Char) :
    scanDigits (c :: cs) =
      if isDigitCh c then
        let (ds, r) := scanDigits cs
        (c :: ds, r)
      else ([], c :: cs) := by
  rw [scanDigits.eq_def]

theorem scanDigits_stop {cs : List Char} (h : delimOk cs = true) :
    scanDigits cs = ([], cs) := by
  match cs with
  | [] => rfl
  | c :: r =>
      simp only [delimOk, Bool.not_eq_true'] at h
      simp [scanDigits_cons, h]

theorem scanDigits_app {ds : List Char} (hds : ∀ c ∈ ds, isDigitCh c = true)
    {rest : List Char} (hrest : delimOk rest = true) :
    scanDigits (ds ++ rest) = (ds, rest) := by
  induction ds with
  | nil => simpa using scanDigits_stop hrest
  | cons c t ih =>
    have hc : isDigitCh c = true := hds c (by simp)
    have ht := ih (fun x hx => hds x (by simp [hx]))
    simp [scanDigits_cons, hc, ht]

theorem scanNat_natChars (n : Nat) {rest : List Char} (hrest : delimOk rest = true) :
    scanNat (natChars n ++ rest) = some (n, rest) := by
  rw [scanNat, scanDigits_app (natChars_digits n) hrest]
  simp [natChars_ne_nil n, List.isEmpty_iff, natChars_foldl]

theorem natChars_head (n : Nat) :
    ∃ c t, natChars n = c :: t ∧ isDigitCh c = true := by
  match h : natChars n with
  | [] => exact absurd h (natChars_ne_nil n)
  | c :: t => exact ⟨c, t, rfl, natChars_digits n c (h ▸ List.mem_cons_self ..)⟩

theorem isDigitCh_ne_minus {c : Char} (h : isDigitCh c = true) : c ≠ '-' := by
  intro hc; subst hc; exact absurd h (by decide)

theorem scanInt_cons (c : Char) (r : List Char) :
    scanInt (c :: r) =
      if c = '-' then
        match scanNat r with
        | some (n, r1) => some (-(n : Int), r1)
        | none => none
      else
        match scanNat (c :: r) with
        | some (n, r1) => some ((n : Int), r1)
        | none => none := by
  rw [scanInt.eq_def]

theorem scanInt_intChars (i : Int) {rest : List Char} (hrest : delimOk rest = true) :
    scanInt (intChars i ++ rest) = some (i, rest) := by
  by_cases hi : i < 0
  · rw [intChars, if_pos hi, List.cons_append, scanInt_cons, if_pos rfl,
      scanNat_natChars _ hrest]
    simp [Int.ofNat_natAbs_of_nonpos (show i ≤ 0 by omega)]
  · obtain ⟨c, t, hct, hc⟩ := natChars_head i.toNat
    rw [intChars, if_neg hi, hct, List.cons_append, scanInt_cons,
      if_neg (isDigitCh_ne_minus hc), ← List.cons_append, ← hct,
      scanNat_natChars _ hrest]
    simp [Int.toNat_of_nonneg (show 0 ≤ i by omega)]

mutual

def sizeV : Json → Nat
  | .null => 1
  | .bool _ => 1
  | .num _ => 1
  | .str _ => 1
  | .arr .nil => 1
  | .arr (.cons x tl) => 1 + max (sizeV x) (sizeA tl)
  | .obj .nil => 1
  | .obj (.cons _ v tl) => 1 + max (sizeV v) (sizeO tl)

def sizeA : JsonA → Nat
  | .nil => 1
  | .cons x tl => 1 + max (sizeV x) (sizeA tl)

def sizeO : JsonO → Nat
  | .nil => 1
  | .cons _ v tl => 1 + max (sizeV v) (sizeO tl)

end

theorem sizeV_pos (j : Json) : 1 ≤ sizeV j := by
  cases j with
  | arr xs => cases xs <;> simp [sizeV]
  | obj fs => cases fs <;> simp [sizeV]
  | _ => simp [sizeV]

theorem isDigitCh_ne_marks {c : Char} (h : isDigitCh c = true) :
    c ≠ 'n' ∧ c ≠ 't' ∧ c ≠ 'f' ∧ c ≠ '"' ∧ c ≠ '[' ∧ c ≠ '\x7b' ∧ c ≠ ']' := by
  refine ⟨?_, ?_, ?_, ?_, ?_, ?_, ?_⟩ <;>
    (intro hc; subst hc; exact absurd h (by decide))

theorem encV_head (j : Json) : ∃ c t, encV j = c :: t ∧ c ≠ ']' := by
  cases j with
  | null => exact ⟨'n', _, rfl, by decide⟩
  | bool b => cases b with
    | true => exact ⟨'t', _, rfl, by decide⟩
    | false => exact ⟨'f', _, rfl, by decide⟩
  | str s => exact ⟨'"', _, rfl, by decide⟩
  | arr xs => cases xs with
    | nil => exact ⟨'[', _, rfl, by decide⟩
    | cons x tl => exact ⟨'[', _, rfl, by decide⟩
  | obj fs => cases fs with
    | nil => exact ⟨'\x7b', _, rfl, by decide⟩
    | cons k v tl => exact ⟨'\x7b', _, rfl, by decide⟩
  | num i =>
      by_cases hi : i < 0
      · exact ⟨'-', natChars i.natAbs, by rw [encV, intChars, if_pos hi], by decide⟩
      · obtain ⟨c, t, hct, hc⟩ := natChars_head i.toNat
        exact ⟨c, t, by rw [encV, intChars, if_neg hi, hct],
          (isDigitCh_ne_marks hc).2.2.2.2.2.2⟩

theorem delimOk_encA (a : JsonA) (rest : List Char) :
    delimOk (encA a ++ rest) = true := by
  cases a <;> simp [encA, delimOk, isDigitCh]

theorem delimOk_encO (o : JsonO) (rest : List Char) :
    delimOk (encO o ++ rest) = true := by
  cases o <;> simp [encO, delimOk, isDigitCh]

theorem String_mk_data (s : String) : String.mk s.data = s := rfl

set_option maxHeartbeats 2000000 in
theorem scanV_cons (fuel : Nat) (c : Char) (r : List Char) :
    scanV (fuel + 1) (c :: r) =
      (if c = 'n' then
        match r with
        | 'u' :: 'l' :: 'l' :: r1 => some (.null, r1)
        | _ => none
      else if c = 't' then
        match r with
        | 'r' :: 'u' :: 'e' :: r1 => some (.bool true, r1)
        | _ => none
      else if c = 'f' then
        match r with
        | 'a' :: 'l' :: 's' :: 'e' :: r1 => some (.bool false, r1)
        | _ => none
      else if c = '"' then
        match scanStr [] r with
        | some (s, r1) => some (.str s, r1)
        | none => none
      else if c = '[' then
        if r.head? = some ']' then some (.arr .nil, r.tail)
        else
          match scanV fuel r with
          | some (x, r3) =>
              match scanA fuel r3 with
              | some (tl, r4) => some (.arr (.cons x tl), r4)
              | none => none
          | none => none
      else if c = '\x7b' then
        if r.head? = some '\x7d' then some (.obj .nil, r.tail)
        else if r.head? = some '"' then
          match scanStr [] r.tail with
          | some (k, r3) =>
              if r3.head? = some ':' then
                match scanV fuel r3.tail with
                | some (v, r5) =>
                    match scanO fuel r5 with
                    | some (tl, r6) => some (.obj (.cons k v tl), r6)
                    | none => none
                | none => none
              else none
          | none => none
        else none
      else if c = '-' ∨ isDigitCh c then
        match scanInt (c :: r) with
        | some (i, r1) => some (.num i, r1)
        | none => none
      else none) := by
  simp only [scanV]

theorem scanA_cons (fuel : Nat) (c : Char) (r : List Char) :
    scanA (fuel + 1) (c :: r) =
      (if c = ']' then some (.nil, r)
      else if c = ',' then
        match scanV fuel r with
        | some (x, r1) =>
            match scanA fuel r1 with
            | some (tl, r2) => some (.cons x tl, r2)
            | none => none
        | none => none
      else none) := by
  simp only [scanA]

theorem scanO_cons (fuel : Nat) (c : Char) (r : List Char) :
    scanO (fuel + 1) (c :: r) =
      (if c = '\x7d' then some (.nil, r)
      else if c = ',' then
        if r.head? = some '"' then
          match scanStr [] r.tail with
          | some (k, r2) =>
              if r2.head? = some ':' then
                match scanV fuel r2.tail with
                | some (v, r4) =>
                    match scanO fuel r4 with
                    | some (tl, r5) => some (.cons k v tl, r5)
                    | none => none
                | none => none
              else none
          | none => none
        else none
      else none) := by
  simp only [scanO]

mutual

theorem rtV : ∀ (j : Json) (fuel : Nat) (rest : List Char),
    sizeV j ≤ fuel → delimOk rest = true →
    scanV fuel (encV j ++ rest) = some (j, rest)
  | j, 0, _, hf, _ => absurd hf (by have := sizeV_pos j; omega)
  | .null, fuel + 1, rest, _, _ => by
      simp [encV, scanV_cons]
  | .bool true, fuel + 1, rest, _, _ => by
      simp [encV, scanV_cons]
  | .bool false, fuel + 1, rest, _, _ => by
      simp [encV, scanV_cons]
  | .num i, fuel + 1, rest, _, hrest => by
      by_cases hi : i < 0
      · rw [show encV (.num i) ++ rest = '-' :: (natChars i.natAbs ++ rest) from by
          rw [encV, intChars, if_pos hi]; simp]
        rw [scanV_cons, if_neg (by decide), if_neg (by decide), if_neg (by decide),
          if_neg (by decide), if_neg (by decide), if_neg (by decide),
          if_pos (Or.inl rfl)]
        rw [show ('-' :: (natChars i.natAbs ++ rest)) = intChars i ++ rest from by
          rw [intChars, if_pos hi]; simp]
        rw [scanInt_intChars i hrest]
      · obtain ⟨c, t, hct, hc⟩ := natChars_head i.toNat
        obtain ⟨h1, h2, h3, h4, h5, h6, _⟩ := isDigitCh_ne_marks hc
        rw [show encV (.num i) ++ rest = c :: (t ++ rest) from by
          rw [encV, intChars, if_neg hi, hct]; simp]
        rw [scanV_cons, if_neg h1, if_neg h2, if_neg h3, if_neg h4, if_neg h5, if_neg h6,
          if_pos (Or.inr hc)]
        rw [show (c :: (t ++ rest)) = intChars i ++ rest from by
          rw [intChars, if_neg hi, hct]; simp]
        rw [scanInt_intChars i hrest]
  | .str s, fuel + 1, rest, _, _ => by
      rw [show encV (.str s) ++ rest = '"' :: (escStr s.data ++ '"' :: rest) from by
        rw [encV, quoteStr]; simp]
      rw [scanV_cons, if_neg (by decide), if_neg (by decide), if_neg (by decide),
        if_pos rfl, scanStr_esc s.data [] rest]
      simp [String_mk_data]
  | .arr .nil, fuel + 1, rest, _, _ => by
      simp [encV, scanV_cons]
  | .arr (.cons x tl), fuel + 1, rest, hf, hrest => by
      have hx : sizeV x ≤ fuel := by simp [sizeV] at hf; omega
      have htl : sizeA tl ≤ fuel := by simp [sizeV] at hf; omega
      rw [show encV (.arr (.cons x tl)) ++ rest = '[' :: (encV x ++ (encA tl ++ rest)) from by
        rw [encV]; simp]
      rw [scanV_cons, if_neg (by decide), if_neg (by decide), if_neg (by decide),
        if_neg (by decide), if_pos rfl]
      obtain ⟨c2, t2, hcx, hc2⟩ := encV_head x
      rw [if_neg (by rw [hcx]; simp [hc2])]
      rw [rtV x fuel (encA tl ++ rest) hx (delimOk_encA tl rest)]
      simp [rtA tl fuel rest htl hrest]
  | .obj .nil, fuel + 1, rest, _, _ => by
      simp [encV, scanV_cons]
  | .obj (.cons k v tl), fuel + 1, rest, hf, hrest => by
      have hv : sizeV v ≤ fuel := by simp [sizeV] at hf; omega
      have htl : sizeO tl ≤ fuel := by simp [sizeV] at hf; omega
      rw [show encV (.obj (.cons k v tl)) ++ rest
          = '\x7b' :: ('"' :: (escStr k.data ++ '"' :: (':' :: (encV v ++ (encO tl ++ rest)))))
        from by rw [encV, quoteStr]; simp]
      rw [scanV_cons, if_neg (by decide), if_neg (by decide), if_neg (by decide),
        if_neg (by decide), if_neg (by decide), if_pos rfl]
      rw [if_neg (by simp), if_pos (by simp)]
      simp only [List.tail_cons]
      rw [scanStr_esc k.data [] _]
      simp only [List.reverse_nil, List.nil_append, String_mk_data]
      rw [if_pos (by simp)]
      simp only [List.tail_cons]
      rw [rtV v fuel (encO tl ++ rest) hv (delimOk_encO tl rest)]
      simp [rtO tl fuel rest htl hrest]

theorem rtA : ∀ (a : JsonA) (fuel : Nat) (rest : List Char),
    sizeA a ≤ fuel → delimOk rest = true →
    scanA fuel (encA a ++ rest) = some (a, rest)
  | a, 0, _, hf, _ => absurd hf (by cases a <;> simp [sizeA])
  | .nil, fuel + 1, rest, _, _ => by
      simp [encA, scanA_cons]
  | .cons x tl, fuel + 1, rest, hf, hrest => by
      have hx : sizeV x ≤ fuel := by simp [sizeA] at hf; omega
      have htl : sizeA tl ≤ fuel := by simp [sizeA] at hf; omega
      rw [show encA (.cons x tl) ++ rest = ',' :: (encV x ++ (encA tl ++ rest)) from by
        rw [encA]; simp]
      rw [scanA_cons, if_neg (by decide), if_pos rfl]
      rw [rtV x fuel (encA tl ++ rest) hx (delimOk_encA tl rest)]
      simp [rtA tl fuel rest htl hrest]

theorem rtO : ∀ (o : JsonO) (fuel : Nat) (rest : List Char),
    sizeO o ≤ fuel → delimOk rest = true →
    scanO fuel (encO o ++ rest) = some (o, rest)
  | o, 0, _, hf, _ => absurd hf (by cases o <;> simp [sizeO])
  | .nil, fuel + 1, rest, _, _ => by
      simp [encO, scanO_cons]
  | .cons k v tl, fuel + 1, rest, hf, hrest => by
      have hv : sizeV v ≤ fuel := by simp [sizeO] at hf; omega
      have htl : sizeO tl ≤ fuel := by simp [sizeO] at hf; omega
      rw [show encO (.cons k v tl) ++ rest
          = ',' :: ('"' :: (escStr k.data ++ '"' :: (':' :: (encV v ++ (encO tl ++ rest)))))
        from by rw [encO, quoteStr]; simp]
      rw [scanO_cons, if_neg (by decide), if_pos rfl]
      rw [if_pos (by simp)]
      simp only [List.tail_cons]
      rw [scanStr_esc k.data [] _]
      simp only [List.reverse_nil, List.nil_append, String_mk_data]
      rw [if_pos (by simp)]
      simp only [List.tail_cons]
      rw [rtV v fuel (encO tl ++ rest) hv (delimOk_encO tl rest)]
      simp [rtO tl fuel rest htl hrest]

end

mutual

theorem sizeV_le_len : ∀ j : Json, sizeV j ≤ (encV j).length
  | .null => by simp [sizeV, encV]
  | .bool true => by simp [sizeV, encV]
  | .bool false => by simp [sizeV, encV]
  | .num i => by
      have := sizeV_pos (.num i)
      have h : encV (.num i) ≠ [] := by
        rw [encV, intChars]
        split
        · simp
        · exact natChars_ne_nil _
      have : 1 ≤ (encV (.num i)).length := by
        cases hh : encV (.num i) with
        | nil => exact absurd hh h
        | cons a b => simp
      simp [sizeV]
      omega
  | .str s => by simp [sizeV, encV, quoteStr]
  | .arr .nil => by simp [sizeV, encV]
  | .arr (.cons x tl) => by
      have h1 := sizeV_le_len x
      have h2 := sizeA_le_len tl
      simp [sizeV, encV]
      omega
  | .obj .nil => by simp [sizeV, encV]
  | .obj (.cons k v tl) => by
      have h1 := sizeV_le_len v
      have h2 := sizeO_le_len tl
      simp [sizeV, encV, quoteStr]
      omega

theorem sizeA_le_len : ∀ a : JsonA, sizeA a ≤ (encA a).length
  | .nil => by simp [sizeA, encA]
  | .cons x tl => by
      have h1 := sizeV_le_len x
      have h2 := sizeA_le_len tl
      simp [sizeA, encA]
      omega

theorem sizeO_le_len : ∀ o : JsonO, sizeO o ≤ (encO o).length
  | .nil => by simp [sizeO, encO]
  | .cons k v tl => by
      have h1 := sizeV_le_len v
      have h2 := sizeO_le_len tl
      simp [sizeO, encO, quoteStr]
      omega

end

/-- Round trip of the modelled JSON codec: decoding an encoded value
recovers it exactly. -/
theorem jload_jdump (j : Json) : jload (jdump j) = some j := by
  have hlen : (jdump j).length = (encV j).length := rfl
  have hdata : (jdump j).data = encV j := rfl
  have h := rtV j ((encV j).length + 1) [] (by have := sizeV_le_len j; omega) rfl
  rw [List.append_nil] at h
  rw [jload, hlen, hdata, h]

/-! ### Protocol frames — `src/server/server.py` (`AlgerMessage`)

`src/server/app/protocol.py` carries the same parsing logic with the error
code as a parameter; the connection loop of `src/server/server.py` uses
the variant below, whose error code is the constant 396
(`CODE_UNKNOWN_TYPE`). -/

def CODE_MESSAGE_ID_ERROR : Int := 395

def CODE_UNKNOWN_TYPE : Int := 396

/-- `ProtocolError(message, error_code)` of `src/server/server.py`. -/
structure ProtocolError where
  msg : String
  error_code : Int
  deriving DecidableEq

/-- Typed representation of an Alger protocol frame (`AlgerMessage`).  The
source annotates `content` as a dict but stores whatever `json.loads`
returned, so the model stores a `Json` value. -/
structure AlgerMessage where
  message_id : Int
  request_id : Int
  type_code : Int
  content : Json
  deriving DecidableEq

/-- Python's `int(str)` conversion: an optional sign before digits.
(The tolerance of Python's `int` for surrounding whitespace and inner
underscores is not modelled; no claim turns on it.) -/
def strToInt (s : String) : Option Int :=
  match s.data with
  | '-' :: r => if r ≠ [] ∧ r.all isDigitCh then
      some (-(r.foldl (fun a c => a * 10 + digitVal c) 0 : Nat)) else none
  | '+' :: r => if r ≠ [] ∧ r.all isDigitCh then
      some ((r.foldl (fun a c => a * 10 + digitVal c) 0 : Nat)) else none
  | r => if r ≠ [] ∧ r.all isDigitCh then
      some ((r.foldl (fun a c => a * 10 + digitVal c) 0 : Nat)) else none

/-- Python's `int(x)` on a decoded JSON value: integers pass through, booleans
coerce to 0/1, numeric strings are converted, everything else raises
(`TypeError`/`ValueError`, surfaced as `none`). -/
def pyToInt : Json → Option Int
  | .num n => some n
  | .bool b => some (if b then 1 else 0)
  | .str s => strToInt s
  | _ => none

/-- `AlgerMessage.parse` of `src/server/server.py`: decode the raw payload,
read the three integer-coerced header fields and the `content` string, and
decode the inner payload (`content_raw or "{}"`). -/
def AlgerMessage.parse (raw : String) : Except ProtocolError AlgerMessage :=
  match jload raw with
  | none => .error ⟨"Payload is not valid JSON", CODE_UNKNOWN_TYPE⟩
  | some (.obj fs) =>
      match (fs.get "id").bind pyToInt, (fs.get "requestId").bind pyToInt,
          (fs.get "type").bind pyToInt, fs.get "content" with
      | some mid, some rid, some tc, some craw =>
          match craw with
          | .str s =>
              match jload (if s = "" then "\x7b\x7d" else s) with
              | some content => .ok ⟨mid, rid, tc, content⟩
              | none => .error ⟨"Content must contain valid JSON", CODE_UNKNOWN_TYPE⟩
          | _ => .error ⟨"Content field must be a JSON-encoded string", CODE_UNKNOWN_TYPE⟩
      | _, _, _, _ =>
          .error ⟨"Missing or non-integer protocol fields", CODE_UNKNOWN_TYPE⟩
  | some _ => .error ⟨"Missing or non-integer protocol fields", CODE_UNKNOWN_TYPE⟩

/-- The frame a serialised `AlgerMessage` denotes: `to_json` builds the dict
`id / requestId / type / content` with the payload re-encoded as a string. -/
def AlgerMessage.payloadJson (m : AlgerMessage) : Json :=
  .obj (.cons "id" (.num m.message_id)
    (.cons "requestId" (.num m.request_id)
      (.cons "type" (.num m.type_code)
        (.cons "content" (.str (jdump m.content)) .nil))))

/-- `AlgerMessage.to_json` of `src/server/server.py`. -/
def AlgerMessage.to_json (m : AlgerMessage) : String := jdump m.payloadJson

/-- `build_status_response` of `src/server/server.py`. -/
def build_status_response (message_id request_id type_code : Int) (content : Json) :
    AlgerMessage :=
  ⟨message_id, request_id, type_code, content⟩

theorem encV_ne_nil (j : Json) : encV j ≠ [] := by
  obtain ⟨c, t, h, _⟩ := encV_head j
  simp [h]

theorem jdump_ne_empty (j : Json) : jdump j ≠ "" := by
  rw [jdump]
  intro h
  have : encV j = [] := by
    have := congrArg String.data h
    simpa using this
  exact encV_ne_nil j this

/-- Round trip of the frame codec, for every frame. -/
theorem parse_to_json (m : AlgerMessage) : AlgerMessage.parse m.to_json = .ok m := by
  rw [AlgerMessage.to_json, AlgerMessage.parse, jload_jdump, AlgerMessage.payloadJson]
  simp [JsonO.get, pyToInt]
  rw [if_neg (jdump_ne_empty m.content), jload_jdump]

/-! ### Connection loop — `alger_handler` of `src/server/server.py`

One iteration of the receive loop, as a function of the
`last_message_id` counter.  Each iteration records a trace: the inbound
ids the loop accepted (frames that parsed and carried the expected id)
and the frames the server sent, in wire order.  The routing step is a
parameter: `route_message` composed with the loop's `except ProtocolError`
conversion is a total function from the accepted frame to the response
type and content, and every loop-level theorem below holds for any such
function. -/

inductive TraceEntry where
  | accepted (id : Int) : TraceEntry
  | sent (f : AlgerMessage) : TraceEntry
  deriving DecidableEq

def TraceEntry.wireId : TraceEntry → Int
  | .accepted i => i
  | .sent f => f.message_id

def TraceEntry.isSent : TraceEntry → Bool
  | .accepted _ => false
  | .sent _ => true

def sentFrames (tr : List TraceEntry) : List AlgerMessage :=
  tr.filterMap fun e =>
    match e with
    | .sent f => some f
    | .accepted _ => none

/-- One iteration of the `while True` loop of `alger_handler`, from one raw
inbound text: parse, enforce the monotonic-id discipline, route, respond. -/
def stepConn (route : AlgerMessage → Int × Json) (last : Int) (raw : String) :
    Int × List TraceEntry :=
  match AlgerMessage.parse raw with
  | .error e =>
      (last + 1,
        [.sent (build_status_response (last + 1) 0 e.error_code
          (.obj (.cons "error" (.str e.msg) .nil)))])
  | .ok m =>
      if m.message_id ≠ last + 1 then
        (last + 1,
          [.sent (build_status_response (last + 1) m.message_id CODE_MESSAGE_ID_ERROR
            (.obj (.cons "error" (.str "incorrect message id")
              (.cons "expectedId" (.num (last + 1))
                (.cons "receivedId" (.num m.message_id) .nil)))))])
      else
        let rc := route m
        (m.message_id + 1,
          [.accepted m.message_id,
            .sent (build_status_response (m.message_id + 1) m.message_id rc.1 rc.2)])

/-- The whole receive loop over the inbound texts of a connection. -/
def runConn (route : AlgerMessage → Int × Json) : Int → List String → Int × List TraceEntry
  | last, [] => (last, [])
  | last, raw :: rest =>
      let s := stepConn route last raw
      let r := runConn route s.1 rest
      (r.1, s.2 ++ r.2)

/-- `handle_login` of `src/server/server.py` (`USERNAME = PASSWORD = "admin"`).
`message.content.get` is modelled on dict payloads; on a non-dict payload the
source would raise `AttributeError`, which no theorem below exercises. -/
def contentGet (c : Json) (k : String) : Option Json :=
  match c with
  | .obj fs => fs.get k
  | _ => none

def handle_login (m : AlgerMessage) : Int × Json :=
  if contentGet m.content "username" = some (.str "admin")
      ∧ contentGet m.content "password" = some (.str "admin") then
    (200, .obj (.cons "status" (.str "login-ok") .nil))
  else
    (300, .obj (.cons "error" (.str "unknown credentials or password mismatch") .nil))

/-- `route_message` restricted to the login handler plus the unknown-type
branch; the loop-level theorems hold for every route function, and the
concrete runs below only exercise type 100. -/
def route_demo (m : AlgerMessage) : Int × Json :=
  if m.type_code = 100 then handle_login m
  else (CODE_UNKNOWN_TYPE,
    .obj (.cons "error"
      (.str ("Unsupported message type: " ++ String.mk (intChars m.type_code))) .nil))

/-- `[s+1, …, s+n]`: the gapless id block a run covers. -/
def idBlock (s : Int) : Nat → List Int
  | 0 => []
  | n + 1 => (s + 1) :: idBlock (s + 1) n

theorem idBlock_append (s : Int) (a b : Nat) :
    idBlock s (a + b) = idBlock s a ++ idBlock (s + a) b := by
  induction a generalizing s with
  | zero => simp [idBlock]
  | succ a ih =>
    have h1 : a + 1 + b = (a + b) + 1 := by omega
    rw [h1, idBlock, idBlock, ih (s + 1)]
    have h2 : s + 1 + (a : Int) = s + (a + 1 : Nat) := by push_cast; omega
    rw [h2]
    simp

theorem idBlock_mem_lt (s : Int) (n : Nat) : ∀ x ∈ idBlock s n, s < x := by
  induction n generalizing s with
  | zero => simp [idBlock]
  | succ n ih =>
    intro x hx
    rw [idBlock] at hx
    rcases List.mem_cons.mp hx with h | h
    · omega
    · have := ih (s + 1) x h
      omega

theorem idBlock_pairwise (s : Int) (n : Nat) :
    List.Pairwise (· < ·) (idBlock s n) := by
  induction n generalizing s with
  | zero => simp [idBlock]
  | succ n ih =>
    rw [idBlock]
    exact List.Pairwise.cons (idBlock_mem_lt (s + 1) n) (ih (s + 1))

theorem stepConn_ids (route : AlgerMessage → Int × Json) (last : Int) (raw : String) :
    ∃ k : Nat, 1 ≤ k ∧ (stepConn route last raw).1 = last + k ∧
      (stepConn route last raw).2.map TraceEntry.wireId = idBlock last k := by
  cases hp : AlgerMessage.parse raw with
  | error e =>
      refine ⟨1, by omega, ?_, ?_⟩ <;>
        simp [stepConn, hp, idBlock, build_status_response, TraceEntry.wireId]
  | ok m =>
      by_cases h : m.message_id = last + 1
      · refine ⟨2, by omega, ?_, ?_⟩ <;>
          (simp [stepConn, hp, h, idBlock, build_status_response, TraceEntry.wireId]
           <;> omega)
      · refine ⟨1, by omega, ?_, ?_⟩ <;>
          simp [stepConn, hp, h, idBlock, build_status_response, TraceEntry.wireId]

theorem runConn_ids (route : AlgerMessage → Int × Json) :
    ∀ (raws : List String) (last : Int),
      ∃ n : Nat, (runConn route last raws).1 = last + n ∧
        (runConn route last raws).2.map TraceEntry.wireId = idBlock last n := by
  intro raws
  induction raws with
  | nil => intro last; exact ⟨0, by simp [runConn], by simp [runConn, idBlock]⟩
  | cons raw rest ih =>
    intro last
    obtain ⟨k, hk1, hs1, hs2⟩ := stepConn_ids route last raw
    obtain ⟨n, hn1, hn2⟩ := ih (stepConn route last raw).1
    refine ⟨k + n, ?_, ?_⟩
    · rw [runConn]
      rw [hn1, hs1]
      omega
    · rw [runConn]
      simp only [List.map_append]
      rw [hs2, hn2, hs1, idBlock_append]

theorem sentFrames_ids_sublist (tr : List TraceEntry) :
    List.Sublist ((sentFrames tr).map AlgerMessage.message_id)
      (tr.map TraceEntry.wireId) := by
  induction tr with
  | nil => simp [sentFrames]
  | cons e rest ih =>
    cases e with
    | accepted i =>
        simp only [sentFrames, List.filterMap_cons, List.map_cons]
        exact List.Sublist.cons _ ih
    | sent f =>
        simp only [sentFrames, List.filterMap_cons, List.map_cons]
        exact List.Sublist.cons₂ _ ih

theorem idBlock_length (s : Int) (n : Nat) : (idBlock s n).length = n := by
  induction n generalizing s with
  | zero => simp [idBlock]
  | succ n ih => simp [idBlock, ih]

/-- C1 (amended): over any route function and any inbound texts, the wire-id
sequence of the accepted inbound frames and the server-sent frames combined
is the gapless block 1, 2, …, and the ids of the frames the server sends are
strictly increasing (they alone are neither gapless nor started at 1). -/
theorem C1_amended_wire_ids (route : AlgerMessage → Int × Json) (raws : List String) :
    (runConn route 0 raws).2.map TraceEntry.wireId
        = idBlock 0 ((runConn route 0 raws).2.length)
    ∧ List.Pairwise (· < ·)
        ((sentFrames (runConn route 0 raws).2).map AlgerMessage.message_id) := by
  obtain ⟨n, _, h2⟩ := runConn_ids route raws 0
  have hlen : (runConn route 0 raws).2.length = n := by
    have := congrArg List.length h2
    simpa [idBlock_length] using this
  constructor
  · rw [hlen]
    exact h2
  · exact List.Pairwise.sublist (h2 ▸ sentFrames_ids_sublist (runConn route 0 raws).2)
      (idBlock_pairwise 0 n)

/-- C1 (counterexample): one authenticated connection that sends a single
valid login frame (id 1).  The server sends exactly one frame and its id is
2, so the ids of the server-sent frames do not form a gapless
strictly-increasing sequence beginning at 1 (that sequence of length 1 would
be `[1]`). -/
theorem C1_counterexample :
    ((sentFrames (runConn route_demo 0
        ["\x7b\"id\":1,\"requestId\":0,\"type\":100,\"content\":\"\x7b\x7d\"\x7d"]).2).map
      AlgerMessage.message_id) = [2]
    ∧ [(2 : Int)] ≠ idBlock 0 1 := by
  constructor
  · rfl
  · decide

/-- C5: an inbound frame that parses but carries an id other than
`last_message_id + 1` draws exactly one type-395 frame whose `message_id`
is the expected id, whose `requestId` is the received id and whose content
carries the error text, `expectedId` and `receivedId`; the frame is not
routed (the trace holds no accepted entry), and `last_message_id` becomes
the expected id. -/
theorem C5_mismatch_response (route : AlgerMessage → Int × Json) (last : Int)
    (raw : String) (m : AlgerMessage)
    (hp : AlgerMessage.parse raw = .ok m) (hne : m.message_id ≠ last + 1) :
    stepConn route last raw =
      (last + 1,
        [.sent ⟨last + 1, m.message_id, CODE_MESSAGE_ID_ERROR,
          .obj (.cons "error" (.str "incorrect message id")
            (.cons "expectedId" (.num (last + 1))
              (.cons "receivedId" (.num m.message_id) .nil)))⟩]) := by
  simp [stepConn, hp, hne, build_status_response]

/-- C5 (witness): after login (`last_message_id = 2`), an inbound frame with
id 4 draws the 395 frame with `expectedId = 3`, `receivedId = 4`, and the
counter moves to 3. -/
theorem C5_witness :
    stepConn route_demo 2
        "\x7b\"id\":4,\"requestId\":0,\"type\":101,\"content\":\"\x7b\x7d\"\x7d" =
      (3,
        [.sent ⟨3, 4, CODE_MESSAGE_ID_ERROR,
          .obj (.cons "error" (.str "incorrect message id")
            (.cons "expectedId" (.num 3)
              (.cons "receivedId" (.num 4) .nil)))⟩]) :=
  C5_mismatch_response route_demo 2 _ ⟨4, 0, 101, .obj .nil⟩ (by rfl) (by decide)

/-- C6: for every well-formed frame (integral header fields by construction,
object payload), parsing the serialisation returns the frame itself. -/
theorem C6_parse_serialize (m : AlgerMessage) (fs : JsonO) (_hc : m.content = .obj fs) :
    AlgerMessage.parse (AlgerMessage.to_json m) = .ok m :=
  parse_to_json m

/-- C6 (witness): the round trip at a concrete frame. -/
theorem C6_witness :
    AlgerMessage.parse (AlgerMessage.to_json ⟨1, 0, 100, .obj .nil⟩)
      = .ok ⟨1, 0, 100, .obj .nil⟩ :=
  C6_parse_serialize ⟨1, 0, 100, .obj .nil⟩ .nil rfl

/-- C8 (counterexample): a raw payload whose `id` header is the *string*
`"1"` — not an integer — is accepted: Python's `int("1")` coerces it, so the
frame parses to message id 1 rather than failing. -/
theorem C8_counterexample :
    jload "\x7b\"id\":\"1\",\"requestId\":0,\"type\":100,\"content\":\"\x7b\x7d\"\x7d"
        = some (.obj (.cons "id" (.str "1") (.cons "requestId" (.num 0)
            (.cons "type" (.num 100) (.cons "content" (.str "\x7b\x7d") .nil)))))
    ∧ AlgerMessage.parse
          "\x7b\"id\":\"1\",\"requestId\":0,\"type\":100,\"content\":\"\x7b\x7d\"\x7d"
        = .ok ⟨1, 0, 100, .obj .nil⟩ := by
  constructor
  · rfl
  · rfl

/-- C8 (amended): parsing fails with a protocol error carrying code 396
whenever a header field is missing or holds a value Python's `int` cannot
coerce (`null`, arrays, objects, non-numeric strings — booleans and numeric
strings *are* coerced and accepted), or the `content` field is missing or
not a string. -/
theorem C8_strict_parse (s : String) (fs : JsonO)
    (hs : jload s = some (.obj fs))
    (hbad : (fs.get "id").bind pyToInt = none
      ∨ (fs.get "requestId").bind pyToInt = none
      ∨ (fs.get "type").bind pyToInt = none
      ∨ ∀ str, fs.get "content" ≠ some (.str str)) :
    ∃ msg, AlgerMessage.parse s = .error ⟨msg, CODE_UNKNOWN_TYPE⟩ := by
  simp only [AlgerMessage.parse, hs]
  cases h1 : (fs.get "id").bind pyToInt with
  | none => exact ⟨"Missing or non-integer protocol fields", by simp [h1]⟩
  | some mid =>
    cases h2 : (fs.get "requestId").bind pyToInt with
    | none => exact ⟨"Missing or non-integer protocol fields", by simp [h1, h2]⟩
    | some rid =>
      cases h3 : (fs.get "type").bind pyToInt with
      | none => exact ⟨"Missing or non-integer protocol fields", by simp [h1, h2, h3]⟩
      | some tc =>
        cases h4 : fs.get "content" with
        | none => exact ⟨"Missing or non-integer protocol fields", by simp [h1, h2, h3, h4]⟩
        | some craw =>
          rcases hbad with hb | hb | hb | hb
          · rw [h1] at hb; exact absurd hb (by simp)
          · rw [h2] at hb; exact absurd hb (by simp)
          · rw [h3] at hb; exact absurd hb (by simp)
          · cases craw with
            | str str => exact absurd h4 (hb str)
            | null =>
                exact ⟨"Content field must be a JSON-encoded string",
                  by simp [h1, h2, h3, h4]⟩
            | bool b =>
                exact ⟨"Content field must be a JSON-encoded string",
                  by simp [h1, h2, h3, h4]⟩
            | num n =>
                exact ⟨"Content field must be a JSON-encoded string",
                  by simp [h1, h2, h3, h4]⟩
            | arr xs =>
                exact ⟨"Content field must be a JSON-encoded string",
                  by simp [h1, h2, h3, h4]⟩
            | obj o =>
                exact ⟨"Content field must be a JSON-encoded string",
                  by simp [h1, h2, h3, h4]⟩

/-- C8 (witness): a frame whose `id` is `null` is rejected with code 396. -/
theorem C8_witness :
    ∃ msg, AlgerMessage.parse
        "\x7b\"id\":null,\"requestId\":0,\"type\":100,\"content\":\"\x7b\x7d\"\x7d"
      = .error ⟨msg, CODE_UNKNOWN_TYPE⟩ :=
  C8_strict_parse _
    (.cons "id" .null (.cons "requestId" (.num 0)
      (.cons "type" (.num 100) (.cons "content" (.str "\x7b\x7d") .nil))))
    (by rfl) (Or.inl (by rfl))

/-! ### Persistence gateway, executions table —
`src/server/app/persistence/database.py`

The claims over `src/server/app/services.py` touch only the executions and
users tables, so the gateway model carries those; the audit tables
(`record_user_action`, `record_login_attempt`, events) record write-only
rows no claim reads and are not modelled. -/

structure ExecRow where
  status : String
  output_file : Option String
  output_content : Option String
  completed_at : Option Nat
  deriving DecidableEq

abbrev ExecDB := List (String × ExecRow)

/-- `SELECT * FROM executions WHERE id = ?`. -/
def get_execution : ExecDB → String → Option ExecRow
  | [], _ => none
  | (i, row) :: tl, eid => if i = eid then some row else get_execution tl eid

/-- `SQLitePersistenceGateway.update_execution_status`: writes the given
status unconditionally, coalesces the output columns, and stamps
`completed_at` with the current time exactly when the *new* status is
terminal. -/
def update_execution_status : ExecDB → String → String → Option String → Option String →
    Nat → ExecDB
  | [], _, _, _, _, _ => []
  | (i, row) :: tl, eid, status, outputFile, outputContent, now =>
      (if i = eid then
        (i,
          { status := status
            output_file := outputFile.or row.output_file
            output_content := outputContent.or row.output_content
            completed_at :=
              if status = "finished" ∨ status = "failed" ∨ status = "stopped" then some now
              else row.completed_at })
      else (i, row)) :: update_execution_status tl eid status outputFile outputContent now

/-! Python `str(x)` on a decoded JSON value (`repr` for containers). -/

mutual

def pyRepr : Json → String
  | .null => "None"
  | .bool true => "True"
  | .bool false => "False"
  | .num n => String.mk (intChars n)
  | .str s => "'" ++ s ++ "'"
  | .arr xs => "[" ++ pyReprA xs ++ "]"
  | .obj fs => "\x7b" ++ pyReprO fs ++ "\x7d"

def pyReprA : JsonA → String
  | .nil => ""
  | .cons x .nil => pyRepr x
  | .cons x tl => pyRepr x ++ ", " ++ pyReprA tl

def pyReprO : JsonO → String
  | .nil => ""
  | .cons k v .nil => "'" ++ k ++ "': " ++ pyRepr v
  | .cons k v tl => "'" ++ k ++ "': " ++ pyRepr v ++ ", " ++ pyReprO tl

end

def pyStr (j : Json) : String :=
  match j with
  | .str s => s
  | _ => pyRepr j

/-- The string id a JSON `executionId` value selects in the store: string
values select their row; any other truthy value is bound against the TEXT
id column and matches nothing. -/
def execIdOf : Json → Option String
  | .str s => some s
  | _ => none

def optStrJson : Option String → Json
  | none => .null
  | some s => .str s

def errObj (msg : String) : Json := .obj (.cons "error" (.str msg) .nil)

/-! ### Handlers — `src/server/app/services.py` -/

/-- `decode_summary` of `src/server/app/dag_runner.py`. -/
def decode_summary : Option String → Json
  | none => .obj .nil
  | some p =>
      if p = "" then .obj .nil
      else
        match jload p with
        | some j => j
        | none => .obj (.cons "raw" (.str p) .nil)

/-- `handle_stop_execution` (type 106): no status check is made before
writing — the targeted execution is marked `stopped` whatever its current
status.  Returns the response pair and the mutated store. -/
def handle_stop_execution (content : Json) (db : ExecDB) (now : Nat) :
    (Int × Json) × ExecDB :=
  let eid := (contentGet content "executionId").getD .null
  if ¬ eid.truthy then ((306, errObj "executionId is required"), db)
  else
    match execIdOf eid with
    | none => ((306, errObj "execution not found"), db)
    | some s =>
        match get_execution db s with
        | none => ((306, errObj "execution not found"), db)
        | some _ =>
            ((206, .obj (.cons "executionId" (.str s)
                (.cons "status" (.str "stopped") .nil))),
              update_execution_status db s "stopped" none none now)

/-- `handle_request_output` (type 107). -/
def handle_request_output (content : Json) (db : ExecDB) : Int × Json :=
  let eid := (contentGet content "executionId").getD .null
  if ¬ eid.truthy then (307, errObj "executionId is required")
  else
    match execIdOf eid with
    | none => (307, errObj "execution not found")
    | some s =>
        match get_execution db s with
        | none => (307, errObj "execution not found")
        | some row =>
            if row.status = "running" then
              (307, errObj ("execution '" ++ s ++ "' is still running"))
            else
              let decoded := decode_summary row.output_content
              if row.status = "failed" then
                (307, .obj (.cons "executionId" (.str s)
                  (.cons "status" (.str row.status)
                    (.cons "file" (optStrJson row.output_file)
                      (.cons "content" decoded .nil)))))
              else if row.status ≠ "finished" then
                (307, errObj ("execution '" ++ s ++ "' is not available (status="
                  ++ row.status ++ ")"))
              else
                (207, .obj (.cons "executionId" (.str s)
                  (.cons "file" (optStrJson row.output_file)
                    (.cons "content" decoded .nil))))

/-! ### Users table and `handle_get_user_data` (type 101) -/

structure UserRow where
  username : String
  display_name : Option String
  email : Option String
  roles : List String
  metadata : Json
  last_login : Option String
  deriving DecidableEq

/-- `ensure_user`: return the existing row for `username` or insert one from
the defaults the handler passes (the freshly allocated opaque `id` never
reaches the profile, which is keyed on `username`). -/
def ensure_user : List UserRow → String → Option String → Option String → List String →
    UserRow × List UserRow
  | [], username, d, e, r =>
      let u : UserRow :=
        { username := username, display_name := d, email := e, roles := r,
          metadata := .obj .nil, last_login := none }
      (u, [u])
  | u :: tl, username, d, e, r =>
      if u.username = username then (u, u :: tl)
      else
        let p := ensure_user tl username d e r
        (p.1, u :: p.2)

/-- `x or y` of Python on an optional string (`None`/`""` are falsy). -/
def orStr (x : Option String) (y : String) : String :=
  match x with
  | none => y
  | some s => if s = "" then y else s

/-- The profile dict `handle_get_user_data` builds from the user row. -/
def profileOf (u : UserRow) : Json :=
  .obj (.cons "id" (.str u.username)
    (.cons "name" (.str (orStr u.display_name u.username))
      (.cons "roles" (.arr (u.roles.foldr (fun s a => .cons (.str s) a) .nil))
        (.cons "email" (optStrJson u.email)
          (.cons "metadata" (if u.metadata.truthy then u.metadata else .obj .nil)
            (.cons "lastLogin" (optStrJson u.last_login) .nil))))))

/-- `handle_get_user_data` of `src/server/app/services.py`: the stringified
`userId` must equal the context's username (the handshake authenticates every
connection as `admin`). -/
def handle_get_user_data (content : Json) (ctxUsername : String)
    (users : List UserRow) : (Int × Json) × List UserRow :=
  let uid := (contentGet content "userId").getD .null
  if ¬ uid.truthy then ((301, errObj "userId is required"), users)
  else if pyStr uid ≠ ctxUsername then
    ((301, errObj ("user '" ++ pyStr uid ++ "' not found")), users)
  else
    let p := ensure_user users ctxUsername (some "Administrator")
      (some "admin@example.com") ["admin", "operator"]
    ((201, .obj (.cons "user" (profileOf p.1) .nil)), p.2)

theorem get_execution_update (db : ExecDB) (eid : String) (st : String)
    (f c : Option String) (now : Nat) :
    get_execution (update_execution_status db eid st f c now) eid
      = (get_execution db eid).map fun row =>
          { status := st
            output_file := f.or row.output_file
            output_content := c.or row.output_content
            completed_at :=
              if st = "finished" ∨ st = "failed" ∨ st = "stopped" then some now
              else row.completed_at } := by
  induction db with
  | nil => simp [update_execution_status, get_execution]
  | cons hd tl ih =>
    obtain ⟨i, row⟩ := hd
    by_cases he : i = eid
    · subst he
      have e2 : update_execution_status ((i, row) :: tl) i st f c now
          = (i,
              { status := st
                output_file := f.or row.output_file
                output_content := c.or row.output_content
                completed_at :=
                  if st = "finished" ∨ st = "failed" ∨ st = "stopped" then some now
                  else row.completed_at }) ::
            update_execution_status tl i st f c now := by
        rw [update_execution_status, if_pos rfl]
      rw [e2]
      have e3 : ∀ (r : ExecRow) (l : ExecDB), get_execution ((i, r) :: l) i = some r := by
        intro r l
        simp [get_execution]
      rw [e3, e3]
      rfl
    · have e1 : get_execution ((i, row) :: tl) eid = get_execution tl eid := by
        simp [get_execution, he]
      have e2 : update_execution_status ((i, row) :: tl) eid st f c now
          = (i, row) :: update_execution_status tl eid st f c now := by
        simp [update_execution_status, he]
      have e3 : get_execution ((i, row) :: update_execution_status tl eid st f c now) eid
          = get_execution (update_execution_status tl eid st f c now) eid := by
        simp [get_execution, he]
      rw [e2, e3, e1, ih]

/-- C4 (amended): a stop-execution request (type 106) on an existing
execution always answers 206 with `status = "stopped"` and rewrites the
stored status to `stopped` — whatever the status was before, terminal
statuses included — stamping `completed_at`; `update_execution_status`
enforces no transition relation. -/
theorem C4_stop_overwrites_status (content : Json) (db : ExecDB) (now : Nat)
    (eid : String) (row : ExecRow)
    (hc : contentGet content "executionId" = some (.str eid))
    (hne : eid ≠ "")
    (hrow : get_execution db eid = some row) :
    (handle_stop_execution content db now).1
        = (206, .obj (.cons "executionId" (.str eid)
            (.cons "status" (.str "stopped") .nil)))
    ∧ get_execution (handle_stop_execution content db now).2 eid
        = some { status := "stopped", output_file := row.output_file,
                 output_content := row.output_content, completed_at := some now } := by
  have ht : (Json.str eid).truthy = true := by
    simpa [Json.truthy] using hne
  constructor
  · rw [handle_stop_execution]
    simp only [hc, Option.getD_some]
    simp [execIdOf, hrow, ht]
  · rw [handle_stop_execution]
    simp only [hc, Option.getD_some]
    simp [execIdOf, hrow, ht, get_execution_update]

/-- C4 (counterexample): an execution whose status is the terminal
`finished` is moved to `stopped` by a stop request — the terminal state is
not sticky. -/
theorem C4_counterexample :
    get_execution [("e1", (⟨"finished", none, none, some 5⟩ : ExecRow))] "e1"
        = some ⟨"finished", none, none, some 5⟩
    ∧ get_execution
        (handle_stop_execution (.obj (.cons "executionId" (.str "e1") .nil))
          [("e1", ⟨"finished", none, none, some 5⟩)] 9).2 "e1"
        = some ⟨"stopped", none, none, some 9⟩
    ∧ ("stopped" : String) ≠ "finished" := by
  refine ⟨by rfl, by rfl, by decide⟩

/-- C4 (witness): the amended statement at a concrete store. -/
theorem C4_witness :
    (handle_stop_execution (.obj (.cons "executionId" (.str "e2") .nil))
        [("e2", (⟨"failed", some "f", some "c", some 4⟩ : ExecRow))] 7).1
      = (206, .obj (.cons "executionId" (.str "e2")
          (.cons "status" (.str "stopped") .nil)))
    ∧ get_execution
        (handle_stop_execution (.obj (.cons "executionId" (.str "e2") .nil))
          [("e2", ⟨"failed", some "f", some "c", some 4⟩)] 7).2 "e2"
      = some { status := "stopped", output_file := some "f",
               output_content := some "c", completed_at := some 7 } :=
  C4_stop_overwrites_status (.obj (.cons "executionId" (.str "e2") .nil))
    [("e2", ⟨"failed", some "f", some "c", some 4⟩)] 7 "e2"
    ⟨"failed", some "f", some "c", some 4⟩ (by rfl) (by decide) (by rfl)

/-- C9: request-output (type 107) on an existing execution returns 207 with
`{executionId, file, content}` and the decoded summary exactly when the
status is `finished`; a `failed` execution draws 307 carrying the decoded
error summary; a `running` execution draws 307 with the still-running
error. -/
theorem C9_request_output (content : Json) (db : ExecDB)
    (eid : String) (row : ExecRow)
    (hc : contentGet content "executionId" = some (.str eid))
    (hne : eid ≠ "")
    (hrow : get_execution db eid = some row) :
    ((handle_request_output content db).1 = 207 ↔ row.status = "finished")
    ∧ (row.status = "finished" →
        handle_request_output content db
          = (207, .obj (.cons "executionId" (.str eid)
              (.cons "file" (optStrJson row.output_file)
                (.cons "content" (decode_summary row.output_content) .nil)))))
    ∧ (row.status = "failed" →
        handle_request_output content db
          = (307, .obj (.cons "executionId" (.str eid)
              (.cons "status" (.str row.status)
                (.cons "file" (optStrJson row.output_file)
                  (.cons "content" (decode_summary row.output_content) .nil))))))
    ∧ (row.status = "running" →
        handle_request_output content db
          = (307, errObj ("execution '" ++ eid ++ "' is still running"))) := by
  have ht : (Json.str eid).truthy = true := by
    simpa [Json.truthy] using hne
  have hmain : handle_request_output content db =
      (if row.status = "running" then
        (307, errObj ("execution '" ++ eid ++ "' is still running"))
      else
        let decoded := decode_summary row.output_content
        if row.status = "failed" then
          (307, .obj (.cons "executionId" (.str eid)
            (.cons "status" (.str row.status)
              (.cons "file" (optStrJson row.output_file)
                (.cons "content" decoded .nil)))))
        else if row.status ≠ "finished" then
          (307, errObj ("execution '" ++ eid ++ "' is not available (status="
            ++ row.status ++ ")"))
        else
          (207, .obj (.cons "executionId" (.str eid)
            (.cons "file" (optStrJson row.output_file)
              (.cons "content" decoded .nil))))) := by
    rw [handle_request_output]
    simp only [hc, Option.getD_some]
    simp [execIdOf, hrow, ht]
  rw [hmain]
  by_cases h1 : row.status = "running"
  · simp [h1]
  · by_cases h2 : row.status = "failed"
    · simp [h1, h2]
    · by_cases h3 : row.status = "finished"
      · simp [h1, h2, h3]
      · simp [h1, h2, h3]

/-- C9 (witness): the three-way behaviour at a concrete finished
execution. -/
theorem C9_witness :
    ((handle_request_output (.obj (.cons "executionId" (.str "e3") .nil))
        [("e3", (⟨"finished", some "e3.json", some "\x7b\x7d", some 2⟩ : ExecRow))]).1 = 207
      ↔ ("finished" : String) = "finished")
    ∧ (("finished" : String) = "finished" →
        handle_request_output (.obj (.cons "executionId" (.str "e3") .nil))
            [("e3", ⟨"finished", some "e3.json", some "\x7b\x7d", some 2⟩)]
          = (207, .obj (.cons "executionId" (.str "e3")
              (.cons "file" (optStrJson (some "e3.json"))
                (.cons "content" (decode_summary (some "\x7b\x7d")) .nil)))))
    ∧ (("finished" : String) = "failed" →
        handle_request_output (.obj (.cons "executionId" (.str "e3") .nil))
            [("e3", ⟨"finished", some "e3.json", some "\x7b\x7d", some 2⟩)]
          = (307, .obj (.cons "executionId" (.str "e3")
              (.cons "status" (.str "finished")
                (.cons "file" (optStrJson (some "e3.json"))
                  (.cons "content" (decode_summary (some "\x7b\x7d")) .nil))))))
    ∧ (("finished" : String) = "running" →
        handle_request_output (.obj (.cons "executionId" (.str "e3") .nil))
            [("e3", ⟨"finished", some "e3.json", some "\x7b\x7d", some 2⟩)]
          = (307, errObj ("execution '" ++ "e3" ++ "' is still running"))) :=
  C9_request_output (.obj (.cons "executionId" (.str "e3") .nil))
    [("e3", ⟨"finished", some "e3.json", some "\x7b\x7d", some 2⟩)] "e3"
    ⟨"finished", some "e3.json", some "\x7b\x7d", some 2⟩ (by rfl) (by decide) (by rfl)

theorem pyStr_falsy_ne_admin (j : Json) (h : j.truthy = false) : pyStr j ≠ "admin" := by
  cases j with
  | null => decide
  | bool b =>
      cases b with
      | true => simp [Json.truthy] at h
      | false => decide
  | num n =>
      have hn : n = 0 := by simpa [Json.truthy] using h
      subst hn
      have h1 : natChars 0 = ['0'] := by
        rw [natChars]
        norm_num
        rfl
      have h0 : pyStr (Json.num 0) = "0" := by
        show String.mk (intChars 0) = "0"
        rw [intChars, if_neg (by omega)]
        norm_num
        rw [h1]
      rw [h0]
      decide
  | str s =>
      have hs : s = "" := by simpa [Json.truthy] using h
      subst hs
      decide
  | arr xs =>
      cases xs with
      | nil => decide
      | cons x tl => simp [Json.truthy] at h
  | obj fs =>
      cases fs with
      | nil => decide
      | cons k v tl => simp [Json.truthy] at h

/-- C10: get-user-data (type 101) on a connection authenticated as `admin`
answers 201 with a user profile exactly when the stringified `userId` equals
the connection's username; every other request — missing `userId` or one
naming a different user — answers 301, so no other user's data is
reachable. -/
theorem C10_get_user_data (content : Json) (users : List UserRow) :
    ((handle_get_user_data content "admin" users).1.1 = 201
      ↔ pyStr ((contentGet content "userId").getD .null) = "admin")
    ∧ ((handle_get_user_data content "admin" users).1.1 = 201
        ∨ (handle_get_user_data content "admin" users).1.1 = 301)
    ∧ ((handle_get_user_data content "admin" users).1.1 = 201 →
        ∃ u : UserRow, (handle_get_user_data content "admin" users).1.2
          = .obj (.cons "user" (profileOf u) .nil)) := by
  by_cases ht : ((contentGet content "userId").getD .null).truthy
  · by_cases hs : pyStr ((contentGet content "userId").getD .null) = "admin"
    · refine ⟨by simp [handle_get_user_data, ht, hs], ?_, ?_⟩
      · left; simp [handle_get_user_data, ht, hs]
      · intro _
        exact ⟨(ensure_user users "admin" (some "Administrator")
            (some "admin@example.com") ["admin", "operator"]).1,
          by simp [handle_get_user_data, ht, hs]⟩
    · refine ⟨by simp [handle_get_user_data, ht, hs], ?_, ?_⟩
      · right; simp [handle_get_user_data, ht, hs]
      · intro habs
        rw [show (handle_get_user_data content "admin" users).1.1 = 301 from by
          simp [handle_get_user_data, ht, hs]] at habs
        exact absurd habs (by decide)
  · have hb : ((contentGet content "userId").getD .null).truthy = false := by
      simpa using ht
    have hs := pyStr_falsy_ne_admin _ hb
    refine ⟨by simp [handle_get_user_data, hb, hs], ?_, ?_⟩
    · right; simp [handle_get_user_data, hb]
    · intro habs
      rw [show (handle_get_user_data content "admin" users).1.1 = 301 from by
        simp [handle_get_user_data, hb]] at habs
      exact absurd habs (by decide)

/-! ### DAG engine — `src/server/app/dag/engine.py`

The engine is embedded parametrically in the output value type `α` and in
the node-kind registry, exactly as `execute_simplified_graph` takes its
`registry` argument; a node callback is a pure function that may raise
(`Except`).  The `networkx` calls are modelled: a built graph keeps node
insertion order and first-insertion edge order (adjacency of a `DiGraph`),
`topological_sort` is Kahn's frontier loop, `is_directed_acyclic_graph` is
its completion check, `dfs_postorder_nodes` is a depth-first postorder with
a visited set, and `find_cycle` returns the edges of one cycle. -/

/-- The input the engine assembles for one node: the none sentinel, one
predecessor's output, or the ordered list of predecessor outputs. -/
inductive NodeInputV (α : Type) where
  | absent : NodeInputV α
  | single (a : α) : NodeInputV α
  | multi (l : List α) : NodeInputV α
  deriving DecidableEq

/-- `NodeType` of the engine: kind name, callback, arity bounds
(`max_inputs = none` is unbounded). -/
structure NodeType (α : Type) where
  kind : String
  fn : NodeInputV α → Json → Except String α
  min_inputs : Nat := 0
  max_inputs : Option Nat := none

/-- `NodeType.validate_arity`. -/
def NodeType.validate_arity (t : NodeType α) (n_inputs : Nat) (node_id : String) :
    Except String Unit :=
  if n_inputs < t.min_inputs then
    .error ("Node '" ++ node_id ++ "' (kind='" ++ t.kind ++ "') expects >= "
      ++ String.mk (natChars t.min_inputs) ++ " input(s); got "
      ++ String.mk (natChars n_inputs) ++ ".")
  else
    match t.max_inputs with
    | some mx =>
        if n_inputs > mx then
          .error ("Node '" ++ node_id ++ "' (kind='" ++ t.kind ++ "') expects <= "
            ++ String.mk (natChars mx) ++ " input(s); got "
            ++ String.mk (natChars n_inputs) ++ ".")
        else .ok ()
    | none => .ok ()

/-- A node of the canonical (simplified) graph: `{id, kind, params}`, with
`kind` possibly absent and `params` already defaulted to `{}` as
`n.get("params", {})` does. -/
structure SNode where
  id : String
  kind : Option String
  params : Json
  deriving DecidableEq

/-- A canonical graph `{nodes, edges}` as the normaliser emits it. -/
structure SGraph where
  nodes : List SNode
  edges : List (String × String)
  deriving DecidableEq

/-- The built `DiGraph`: nodes in insertion order (ids unique once building
succeeded), edges deduplicated in first-insertion order. -/
structure BGraph where
  nodes : List SNode
  edges : List (String × String)
  deriving DecidableEq

def BGraph.nodeIds (g : BGraph) : List String := g.nodes.map (·.id)

/-- `G.predecessors(n)`: sources of the in-edges in adjacency insertion
order. -/
def BGraph.preds (g : BGraph) (n : String) : List String :=
  (g.edges.filter fun e => e.2 = n).map (·.1)

/-- `G.successors(n)` / `G.edges(n)`: targets of the out-edges in adjacency
insertion order. -/
def BGraph.succs (g : BGraph) (n : String) : List String :=
  (g.edges.filter fun e => e.1 = n).map (·.2)

def BGraph.inDeg (g : BGraph) (n : String) : Nat := (g.preds n).length

def BGraph.outDeg (g : BGraph) (n : String) : Nat := (g.succs n).length

def BGraph.sources (g : BGraph) : List String :=
  g.nodeIds.filter fun n => g.inDeg n = 0

def BGraph.sinks (g : BGraph) : List String :=
  g.nodeIds.filter fun n => g.outDeg n = 0

/-- The edge-insertion loop: both endpoints must name existing nodes;
re-adding an existing edge is a no-op of the `DiGraph`. -/
def addEdges (ids : List String) : List (String × String) → List (String × String) →
    Except String (List (String × String))
  | [], acc => .ok acc
  | (s, t) :: rest, acc =>
      if s ∉ ids ∨ t ∉ ids then
        .error ("Edge refers to missing node: " ++ s ++ " -> " ++ t)
      else addEdges ids rest (if (s, t) ∈ acc then acc else acc ++ [(s, t)])

/-- The per-node `params` re-check of the build loop. -/
def checkParams : List SNode → Except String Unit
  | [] => .ok ()
  | n :: tl =>
      match n.params with
      | .obj _ => checkParams tl
      | _ => .error ("Node '" ++ n.id ++ "' params must be a dict.")

/-- The build phase of `execute_simplified_graph`: duplicate-id check, node
loop with `params` validation, edge loop with endpoint validation. -/
def buildGraph (s : SGraph) : Except String BGraph :=
  if ¬ (s.nodes.map (·.id)).Nodup then .error "Duplicate node ids in simplified graph."
  else
    match checkParams s.nodes with
    | .error e => .error e
    | .ok _ =>
        match addEdges (s.nodes.map (·.id)) s.edges [] with
        | .error e => .error e
        | .ok es => .ok ⟨s.nodes, es⟩

/-! #### Topological orders -/

/-- A node still has an unprocessed predecessor among `remaining`. -/
def hasLivePred (edges : List (String × String)) (remaining : List String)
    (n : String) : Bool :=
  edges.any fun e => decide (e.2 = n ∧ e.1 ∈ remaining)

/-- Kahn's frontier loop of `networkx.topological_sort`: repeatedly emit the
nodes with no remaining predecessor (ties in insertion order) until the
frontier empties.  Returns the order and the nodes never emitted; the DAG
check of `networkx.is_directed_acyclic_graph` is emptiness of the latter. -/
def kahnRounds (edges : List (String × String)) :
    Nat → List String → List String × List String
  | 0, remaining => ([], remaining)
  | fuel + 1, remaining =>
      let zeros := remaining.filter fun n => !(hasLivePred edges remaining n)
      if zeros.isEmpty then ([], remaining)
      else
        let rest := remaining.filter fun n => hasLivePred edges remaining n
        let r := kahnRounds edges fuel rest
        (zeros ++ r.1, r.2)

def kahnSort (g : BGraph) : List String × List String :=
  kahnRounds g.edges (g.nodeIds.length + 1) g.nodeIds

/-- Depth-first visit of `networkx.dfs_postorder_nodes`: pre-mark, recurse
into successors in adjacency order, then emit.  Returns the grown visited
set and the postorder of the newly visited nodes. -/
def dfsVisit (edges : List (String × String)) :
    Nat → List String → String → List String × List String
  | 0, vis, _ => (vis, [])
  | fuel + 1, vis, u =>
      if u ∈ vis then (vis, [])
      else
        let r := (((edges.filter fun e => e.1 = u).map (·.2)).foldl
          (fun (acc : List String × List String) v =>
            let s := dfsVisit edges fuel acc.1 v
            (s.1, acc.2 ++ s.2))
          (vis ++ [u], []))
        (r.1, r.2 ++ [u])

/-- `dfs_postorder_nodes(G)` without a source: a depth-first forest over all
nodes in insertion order, with one shared visited set. -/
def dfsForest (edges : List (String × String)) (fuel : Nat)
    (nodes : List String) : List String :=
  (nodes.foldl
    (fun (acc : List String × List String) n =>
      let s := dfsVisit edges fuel acc.1 n
      (s.1, acc.2 ++ s.2))
    ([], [])).2

/-- The engine's `seen` filter: keep the first occurrence of each node. -/
def dedupKeepFirst : List String → List String → List String
  | _, [] => []
  | seen, x :: tl =>
      if x ∈ seen then dedupKeepFirst seen tl
      else x :: dedupKeepFirst (seen ++ [x]) tl

/-- The postorder stream the `dfs` strategy filters: one full postorder per
source (each `dfs_postorder_nodes(G, source=src)` call starts with a fresh
visited set), then the safety-net forest over every node. -/
def rawPost (g : BGraph) : List String :=
  ((g.sources.map fun src =>
      (dfsVisit g.edges (g.nodeIds.length + 1) [] src).2).flatten)
    ++ dfsForest g.edges (g.nodeIds.length + 1) g.nodeIds

/-- The `dfs` strategy's order: reverse of the deduplicated postorder. -/
def dfsOrder (g : BGraph) : List String :=
  (dedupKeepFirst [] (rawPost g)).reverse

/-! #### Cycle extraction (`networkx.find_cycle`) -/

/-- One predecessor of `n` among `remaining` (the first such edge). -/
def pickPred (edges : List (String × String)) (remaining : List String)
    (n : String) : Option String :=
  ((edges.filter fun e => decide (e.2 = n ∧ e.1 ∈ remaining)).map (·.1)).head?

def takeUpTo (v : String) : List String → List String
  | [] => []
  | x :: tl => if x = v then [] else x :: takeUpTo v tl

/-- Walk backwards through predecessors inside the stuck set until a node
repeats; return the repeated node and the walked prefix before it. -/
def backWalk (edges : List (String × String)) (remaining : List String) :
    Nat → String → List String → Option (String × List String)
  | 0, _, _ => none
  | fuel + 1, u, path =>
      match pickPred edges remaining u with
      | none => none
      | some v =>
          if v ∈ path then some (v, takeUpTo v path)
          else backWalk edges remaining fuel v (v :: path)

/-- Models `networkx.find_cycle(G, orientation="original")`: one example
cycle as an edge list, extracted from the nodes Kahn's loop could not
process. -/
def findCycle (g : BGraph) : Option (List (String × String)) :=
  match (kahnSort g).2 with
  | [] => none
  | r :: _ =>
      match backWalk g.edges (kahnSort g).2 ((kahnSort g).2.length + 1) r [r] with
      | some (v, a) => some (List.zip (v :: a) (a ++ [v]))
      | none => none

def renderCycleEdges : List (String × String) → String
  | [] => ""
  | [(u, v)] => "('" ++ u ++ "', '" ++ v ++ "', 'forward')"
  | (u, v) :: tl => "('" ++ u ++ "', '" ++ v ++ "', 'forward'), " ++ renderCycleEdges tl

def renderCycle : Option (List (String × String)) → String
  | none => "[]"
  | some l => "[" ++ renderCycleEdges l ++ "]"

/-! #### Validation and execution -/

/-- The per-node kind and arity loop (`for nid, data in G.nodes(data=True)`). -/
def checkKinds (registry : String → Option (NodeType α)) (g : BGraph) :
    List SNode → Except String Unit
  | [] => .ok ()
  | n :: tl =>
      match n.kind with
      | none => .error ("Node '" ++ n.id ++ "' is missing 'kind'.")
      | some k =>
          if k = "" then .error ("Node '" ++ n.id ++ "' is missing 'kind'.")
          else
            match registry k with
            | none => .error ("Node '" ++ n.id ++ "' has unknown kind '" ++ k ++ "'.")
            | some nt =>
                match nt.validate_arity (g.inDeg n.id) n.id with
                | .error e => .error e
                | .ok _ => checkKinds registry g tl

/-- The validation phase of `execute_simplified_graph`, in source order:
build, DAG check (with the example cycle in the error), kind and arity
checks, empty-graph and no-sink checks. -/
def validateGraph (registry : String → Option (NodeType α)) (s : SGraph) :
    Except String BGraph :=
  match buildGraph s with
  | .error e => .error e
  | .ok g =>
      if ¬ (kahnSort g).2.isEmpty then
        .error ("Pipeline must be a DAG. Found cycle: " ++ renderCycle (findCycle g))
      else
        match checkKinds registry g g.nodes with
        | .error e => .error e
        | .ok _ =>
            if g.nodes.isEmpty then .error "Graph is empty."
            else if g.sinks.isEmpty then .error "Graph has no terminal (sink) nodes."
            else .ok g

/-- The order block of `execute_simplified_graph`. -/
def chooseOrder (g : BGraph) (strategy : String) : Except String (List String × String) :=
  if strategy = "kahn" then .ok ((kahnSort g).1, "breadth-first topological (Kahn)")
  else if strategy = "dfs" then .ok (dfsOrder g, "depth-first topological (DFS postorder)")
  else .error ("Unknown execution strategy: " ++ strategy)

def lookupOut (outs : List (String × α)) (p : String) : Option α :=
  match outs with
  | [] => none
  | (i, v) :: tl => if i = p then some v else lookupOut tl p

def gatherOuts (outs : List (String × α)) : List String → Except String (List α)
  | [] => .ok []
  | p :: tl =>
      match lookupOut outs p with
      | some v =>
          match gatherOuts outs tl with
          | .ok vs => .ok (v :: vs)
          | .error e => .error e
      | none => .error ("KeyError: '" ++ p ++ "'")

/-- The input assembly of the execution loop: none for 0 predecessors, the
output itself for 1, the ordered list for 2 or more. -/
def mkInput (outs : List (String × α)) : List String → Except String (NodeInputV α)
  | [] => .ok .absent
  | [p] =>
      match lookupOut outs p with
      | some v => .ok (.single v)
      | none => .error ("KeyError: '" ++ p ++ "'")
  | ps =>
      match gatherOuts outs ps with
      | .ok vs => .ok (.multi vs)
      | .error e => .error e

/-- One observer event: node id, the input passed to the callback, the
output stored, and the predecessor list (timing is not modelled). -/
structure NodeEvent (α : Type) where
  node_id : String
  input : NodeInputV α
  output : α
  preds : List String
  deriving DecidableEq

def nodeOf (g : BGraph) (nid : String) : Option SNode :=
  g.nodes.find? fun n => n.id = nid

/-- The execution loop: walk the order, assemble each node's input from the
stored outputs, re-validate arity, invoke the callback, store the output
and emit the event; a raising callback aborts with no event for it. -/
def runOrder (registry : String → Option (NodeType α)) (g : BGraph) :
    List String → List (String × α) → List (NodeEvent α) →
    List (NodeEvent α) × Except String (List (String × α))
  | [], outs, evs => (evs, .ok outs)
  | nid :: rest, outs, evs =>
      match nodeOf g nid with
      | none => (evs, .error ("KeyError: '" ++ nid ++ "'"))
      | some n =>
          match n.kind with
          | none => (evs, .error ("KeyError: kind of '" ++ nid ++ "'"))
          | some k =>
              match registry k with
              | none => (evs, .error ("KeyError: '" ++ k ++ "'"))
              | some nt =>
                  let ps := g.preds nid
                  match mkInput outs ps with
                  | .error e => (evs, .error e)
                  | .ok input =>
                      match nt.validate_arity ps.length nid with
                      | .error e => (evs, .error e)
                      | .ok _ =>
                          match nt.fn input n.params with
                          | .error e => (evs, .error e)
                          | .ok out =>
                              runOrder registry g rest (outs ++ [(nid, out)])
                                (evs ++ [⟨nid, input, out, ps⟩])

structure ExecResultM (α : Type) where
  order : List String
  outputs : List (String × α)
  sources : List String
  sinks : List String
  execution_strategy : String

/-- `execute_simplified_graph`, returning the observer events alongside the
result (the source invokes the observer once per executed node). -/
def execute_simplified_graph (registry : String → Option (NodeType α))
    (s : SGraph) (strategy : String) :
    List (NodeEvent α) × Except String (ExecResultM α) :=
  match validateGraph registry s with
  | .error e => ([], .error e)
  | .ok g =>
      match chooseOrder g strategy with
      | .error e => ([], .error e)
      | .ok ol =>
          let r := runOrder registry g ol.1 [] []
          (r.1,
            match r.2 with
            | .error e => .error e
            | .ok outs => .ok ⟨ol.1, outs, g.sources, g.sinks, ol.2⟩)

/-! #### List order helpers -/

theorem first_occ_split {α : Type} [DecidableEq α] {a : α} {l : List α} (h : a ∈ l) :
    ∃ s t, l = s ++ a :: t ∧ a ∉ s := by
  induction l with
  | nil => cases h
  | cons x tl ih =>
    by_cases hx : x = a
    · exact ⟨[], tl, by rw [hx]; rfl, by simp⟩
    · rcases List.mem_cons.mp h with h1 | h1
      · exact absurd h1.symm hx
      · obtain ⟨s, t, hst, hns⟩ := ih h1
        exact ⟨x :: s, t, by simp [hst], by simp [hns, Ne.symm hx]⟩


theorem pair_sublist_split {α : Type} {a b : α} {l : List α}
    (h : [a, b].Sublist l) : ∃ s t, l = s ++ a :: t ∧ b ∈ t := by
  induction l with
  | nil => cases h
  | cons x tl ih =>
    rcases List.sublist_cons_iff.mp h with h1 | ⟨r, hr, hrs⟩
    · obtain ⟨s, t, hst, hb⟩ := ih h1
      exact ⟨x :: s, t, by simp [hst], hb⟩
    · cases hr
      exact ⟨[], tl, rfl, List.Sublist.mem (List.mem_singleton_self b) hrs⟩

theorem mem_mem_pair_sublist {α : Type} {a b : α} {l₁ l₂ : List α}
    (ha : a ∈ l₁) (hb : b ∈ l₂) : [a, b].Sublist (l₁ ++ l₂) := by
  have h1 : [a].Sublist l₁ := List.singleton_sublist.mpr ha
  have h2 : [b].Sublist l₂ := List.singleton_sublist.mpr hb
  simpa using List.Sublist.append h1 h2

/-- In a duplicate-free list, an element that occurs before `b` (as a pair
sublist) lies in every prefix that ends right before `b`. -/
theorem pair_sublist_before {α : Type} [DecidableEq α] {a b : α} :
    ∀ {l : List α}, l.Nodup → [a, b].Sublist l →
      ∀ pr rest, l = pr ++ b :: rest → a ∈ pr := by
  intro l
  induction l with
  | nil => intro _ h; cases h
  | cons x tl ih =>
    intro hnd h pr rest heq
    have hbm : b ∈ tl := by
      rcases List.sublist_cons_iff.mp h with h1 | ⟨r, hr, hrs⟩
      · obtain ⟨s, t, hst, hb⟩ := pair_sublist_split h1
        rw [hst]
        simp [hb]
      · cases hr
        exact List.Sublist.mem (List.mem_singleton_self b) hrs
    match pr, heq with
    | [], heq =>
        have hx : x = b := by simpa using congrArg List.head? heq
        subst hx
        exact absurd hbm (List.nodup_cons.mp hnd).1
    | p :: pr', heq =>
        have hx : p = x := by simpa using (congrArg List.head? heq).symm
        subst hx
        have htl : tl = pr' ++ b :: rest := by simpa using heq
        rcases List.sublist_cons_iff.mp h with h1 | ⟨r, hr, hrs⟩
        · exact List.mem_cons_of_mem _ (ih (List.nodup_cons.mp hnd).2 h1 pr' rest htl)
        · cases hr
          exact List.mem_cons_self _ _

/-! #### Kahn order: members, nodup, topological property -/

theorem hasLivePred_iff (edges : List (String × String)) (remaining : List String)
    (n : String) :
    hasLivePred edges remaining n = true ↔ ∃ e ∈ edges, e.2 = n ∧ e.1 ∈ remaining := by
  simp [hasLivePred, List.any_eq_true]

theorem kahnRounds_spec (edges : List (String × String)) :
    ∀ (fuel : Nat) (remaining : List String), remaining.Nodup →
      ((kahnRounds edges fuel remaining).1.Nodup)
      ∧ (∀ x ∈ (kahnRounds edges fuel remaining).1, x ∈ remaining)
      ∧ (∀ x ∈ (kahnRounds edges fuel remaining).2, x ∈ remaining)
      ∧ (∀ x ∈ remaining,
          x ∈ (kahnRounds edges fuel remaining).1 ∨ x ∈ (kahnRounds edges fuel remaining).2)
      ∧ (∀ u v, (u, v) ∈ edges → u ∈ remaining →
          v ∈ (kahnRounds edges fuel remaining).1 →
          [u, v].Sublist (kahnRounds edges fuel remaining).1) := by
  intro fuel
  induction fuel with
  | zero =>
    intro remaining _
    refine ⟨by simp [kahnRounds], ?_, ?_, ?_, ?_⟩ <;> simp [kahnRounds]
  | succ fuel ih =>
    intro remaining hnd
    rw [kahnRounds]
    by_cases hz : (remaining.filter fun n => !(hasLivePred edges remaining n)).isEmpty
    · rw [if_pos hz]
      refine ⟨by simp, ?_, ?_, ?_, ?_⟩ <;> simp
    · rw [if_neg hz]
      set zeros := remaining.filter fun n => !(hasLivePred edges remaining n) with hzeros
      set rest := remaining.filter fun n => hasLivePred edges remaining n with hrest
      have hrn : rest.Nodup := List.Nodup.filter _ hnd
      obtain ⟨ha, hb, hc, hd, hf⟩ := ih rest hrn
      have hzmem : ∀ x ∈ zeros, x ∈ remaining := fun x hx => (List.mem_filter.mp hx).1
      have hrmem : ∀ x ∈ rest, x ∈ remaining := fun x hx => (List.mem_filter.mp hx).1
      have hzrest : ∀ x ∈ zeros, x ∉ rest := by
        intro x hx hxr
        have h1 := (List.mem_filter.mp hx).2
        have h2 := (List.mem_filter.mp hxr).2
        simp at h1
        rw [h1] at h2
        cases h2
      refine ⟨?_, ?_, ?_, ?_, ?_⟩
      · refine List.Nodup.append (List.Nodup.filter _ hnd) ha ?_
        intro x hx hx2
        exact hzrest x hx (hb x hx2)
      · intro x hx
        rcases List.mem_append.mp hx with h | h
        · exact hzmem x h
        · exact hrmem x (hb x h)
      · intro x hx
        exact hrmem x (hc x hx)
      · intro x hx
        by_cases hl : hasLivePred edges remaining x
        · have : x ∈ rest := List.mem_filter.mpr ⟨hx, hl⟩
          rcases hd x this with h | h
          · exact Or.inl (List.mem_append.mpr (Or.inr h))
          · exact Or.inr h
        · exact Or.inl (List.mem_append.mpr (Or.inl
            (List.mem_filter.mpr ⟨hx, by simp [hl]⟩)))
      · intro u v huv hu hv
        rcases List.mem_append.mp hv with h | h
        · have h1 := (List.mem_filter.mp h).2
          simp only [Bool.not_eq_true'] at h1
          have h2 : ¬ ∃ e ∈ edges, e.2 = v ∧ e.1 ∈ remaining := by
            rw [← hasLivePred_iff edges remaining v, h1]
            simp
          exact absurd ⟨(u, v), huv, rfl, hu⟩ h2
        · by_cases hul : hasLivePred edges remaining u
          · have hur : u ∈ rest := List.mem_filter.mpr ⟨hu, hul⟩
            exact List.Sublist.trans (hf u v huv hur h) (List.sublist_append_right _ _)
          · have huz : u ∈ zeros := List.mem_filter.mpr ⟨hu, by simp [hul]⟩
            exact mem_mem_pair_sublist huz h

theorem kahnRounds_stuck (edges : List (String × String)) :
    ∀ (fuel : Nat) (remaining : List String), remaining.length < fuel →
      ∀ n ∈ (kahnRounds edges fuel remaining).2,
        hasLivePred edges (kahnRounds edges fuel remaining).2 n = true := by
  intro fuel
  induction fuel with
  | zero => intro remaining h; omega
  | succ fuel ih =>
    intro remaining hlen
    rw [kahnRounds]
    by_cases hz : (remaining.filter fun n => !(hasLivePred edges remaining n)).isEmpty
    · rw [if_pos hz]
      intro n hn
      have := List.isEmpty_iff.mp hz
      rw [List.filter_eq_nil_iff] at this
      have h2 := this n hn
      simpa using h2
    · rw [if_neg hz]
      have hpart := List.length_eq_length_filter_add
        (l := remaining) (fun n => hasLivePred edges remaining n)
      have hz1 : 1 ≤ (remaining.filter fun n => !(hasLivePred edges remaining n)).length := by
        rcases hq : remaining.filter fun n => !(hasLivePred edges remaining n) with _ | ⟨a, b⟩
        · rw [hq] at hz; simp at hz
        · simp
      have hrl : (remaining.filter fun n => hasLivePred edges remaining n).length < fuel := by
        omega
      exact ih _ hrl

/-- A set of nodes each of which has an in-edge from inside the set. -/
def selfSustaining (edges : List (String × String)) (S : List String) : Prop :=
  ∀ v ∈ S, ∃ u ∈ S, (u, v) ∈ edges

theorem kahnRounds_keeps (edges : List (String × String)) (S : List String)
    (hS : selfSustaining edges S) :
    ∀ (fuel : Nat) (remaining : List String), (∀ x ∈ S, x ∈ remaining) →
      ∀ x ∈ S, x ∈ (kahnRounds edges fuel remaining).2 := by
  intro fuel
  induction fuel with
  | zero => intro remaining hsub x hx; simpa [kahnRounds] using hsub x hx
  | succ fuel ih =>
    intro remaining hsub
    rw [kahnRounds]
    by_cases hz : (remaining.filter fun n => !(hasLivePred edges remaining n)).isEmpty
    · rw [if_pos hz]
      exact hsub
    · rw [if_neg hz]
      intro x hx
      refine ih _ ?_ x hx
      intro y hy
      obtain ⟨u, hu, hedge⟩ := hS y hy
      refine List.mem_filter.mpr ⟨hsub y hy, ?_⟩
      rw [hasLivePred_iff]
      exact ⟨(u, y), hedge, rfl, hsub u hu⟩

/-- A genuine cycle: a nonempty chained list of edges of the graph whose
last target returns to the first source. -/
def isGenuineCycle (edges : List (String × String)) (c : List (String × String)) : Prop :=
  c ≠ [] ∧ (∀ e ∈ c, e ∈ edges) ∧ List.Chain' (fun e f => e.2 = f.1) c
  ∧ c.head?.map Prod.fst = (c.getLast?.map Prod.snd)

theorem cycle_sources_mem_targets {c : List (String × String)}
    (hch : List.Chain' (fun e f => e.2 = f.1) c)
    (hcl : c.head?.map Prod.fst = c.getLast?.map Prod.snd) :
    ∀ e ∈ c, e.1 ∈ c.map (·.2) := by
  intro e he
  obtain ⟨s, t, hst⟩ := List.append_of_mem he
  rcases List.eq_nil_or_concat s with hs | ⟨s', f, hs⟩
  · subst hs
    simp only [List.nil_append] at hst
    subst hst
    have h1 : some e.1 = ((e :: t).getLast?.map Prod.snd) := by
      rw [← hcl]
      simp
    rcases hq : (e :: t).getLast? with _ | g
    · simp at hq
    · rw [hq] at h1
      simp only [Option.map_some'] at h1
      have hg : g ∈ e :: t := List.mem_of_mem_getLast? hq
      rw [show e.1 = g.2 from by simpa using h1]
      exact List.mem_map_of_mem _ hg
  · subst hs
    subst hst
    have := List.chain'_append.mp hch
    have hR := this.2.2
    have hf : (s' ++ [f]).getLast? = some f := by simp
    have hrel : f.2 = e.1 := by
      have := hR f (by simp) e (by simp)
      exact this
    rw [← hrel]
    refine List.mem_map_of_mem _ ?_
    simp

theorem cycle_selfSustaining {edges c : List (String × String)}
    (h : isGenuineCycle edges c) : selfSustaining edges (c.map (·.2)) := by
  obtain ⟨hne, hmem, hch, hcl⟩ := h
  intro v hv
  obtain ⟨e, he, hev⟩ := List.mem_map.mp hv
  exact ⟨e.1, cycle_sources_mem_targets hch hcl e he, hev ▸ hmem e he⟩

/-! #### Correctness of the cycle extraction -/

def pathChain (edges : List (String × String)) (path : List String) : Prop :=
  ∀ xs y z ys, path = xs ++ y :: z :: ys → (y, z) ∈ edges

theorem pickPred_some_spec {edges : List (String × String)} {R : List String}
    {n v : String} (h : pickPred edges R n = some v) :
    (v, n) ∈ edges ∧ v ∈ R := by
  rw [pickPred] at h
  rcases hq : (edges.filter fun e => decide (e.2 = n ∧ e.1 ∈ R)) with _ | ⟨e, tl⟩
  · rw [hq] at h; simp at h
  · rw [hq] at h
    simp only [List.map_cons, List.head?_cons, Option.some_inj] at h
    have he : e ∈ edges.filter fun e => decide (e.2 = n ∧ e.1 ∈ R) := by
      rw [hq]; exact List.mem_cons_self _ _
    have := List.mem_filter.mp he
    have hp : e.2 = n ∧ e.1 ∈ R := by simpa using this.2
    refine ⟨?_, h ▸ hp.2⟩
    have he2 : (v, n) = e := by
      rw [← h, ← hp.1]
    rw [he2]
    exact this.1

theorem stuck_pickPred {edges : List (String × String)} {R : List String} {n : String}
    (h : hasLivePred edges R n = true) : ∃ v, pickPred edges R n = some v := by
  rw [hasLivePred_iff] at h
  obtain ⟨e, he, h2, h1⟩ := h
  have hmem : e ∈ edges.filter fun e => decide (e.2 = n ∧ e.1 ∈ R) :=
    List.mem_filter.mpr ⟨he, by simp [h2, h1]⟩
  rcases hq : (edges.filter fun e => decide (e.2 = n ∧ e.1 ∈ R)) with _ | ⟨f, tl⟩
  · rw [hq] at hmem; cases hmem
  · exact ⟨f.1, by rw [pickPred, hq]; simp⟩

theorem takeUpTo_split {v : String} : ∀ {path : List String}, v ∈ path →
    ∃ b, path = takeUpTo v path ++ v :: b ∧ v ∉ takeUpTo v path := by
  intro path
  induction path with
  | nil => intro h; cases h
  | cons x tl ih =>
    intro h
    by_cases hx : x = v
    · subst hx
      exact ⟨tl, by simp [takeUpTo], by simp [takeUpTo]⟩
    · have hvt : v ∈ tl := by
        rcases List.mem_cons.mp h with h1 | h1
        · exact absurd h1.symm hx
        · exact h1
      obtain ⟨b, hb, hnb⟩ := ih hvt
      refine ⟨b, ?_, ?_⟩
      · rw [takeUpTo, if_neg hx]
        simpa using hb
      · rw [takeUpTo, if_neg hx]
        intro hmem
        rcases List.mem_cons.mp hmem with h1 | h1
        · exact hx h1.symm
        · exact hnb h1

theorem zip_tail_chain : ∀ (w : List String),
    List.Chain' (fun e f => (e : String × String).2 = f.1) (w.zip w.tail) := by
  intro w
  match w with
  | [] => simp
  | [x] => simp
  | x :: y :: tl =>
      have ih := zip_tail_chain (y :: tl)
      rw [show (x :: y :: tl).zip (x :: y :: tl).tail
          = (x, y) :: ((y :: tl).zip tl) from rfl]
      rw [show ((y :: tl) : List String).tail = tl from rfl] at ih
      refine List.chain'_cons'.mpr ⟨?_, ih⟩
      intro z hz
      match tl, hz with
      | t :: ts, hz =>
          simp only [List.zip_cons_cons, List.head?_cons, Option.mem_def,
            Option.some_inj] at hz
          rw [← hz]

theorem zip_tail_getLast : ∀ (w : List String) (x y : String),
    (((x :: y :: w).zip (y :: w)).getLast?.map Prod.snd) = (y :: w).getLast? := by
  intro w
  induction w with
  | nil => intro x y; rfl
  | cons z tl ih =>
    intro x y
    rw [show ((x :: y :: z :: tl).zip (y :: z :: tl))
        = (x, y) :: ((y :: z :: tl).zip (z :: tl)) from rfl]
    rw [show ((y :: z :: tl).zip (z :: tl)) = (y, z) :: ((z :: tl).zip tl) from rfl]
    rw [List.getLast?_cons_cons]
    rw [show ((y, z) : String × String) :: ((z :: tl).zip tl)
        = (y :: z :: tl).zip (z :: tl) from rfl]
    rw [ih y z]
    simp [List.getLast?_cons_cons]

theorem zip_tail_mem_adjacent : ∀ (w : List String) (e : String × String),
    e ∈ w.zip w.tail → ∃ xs ys, w = xs ++ e.1 :: e.2 :: ys := by
  intro w
  match w with
  | [] => intro e he; cases he
  | [x] => intro e he; cases he
  | x :: y :: tl =>
      intro e he
      rw [show (x :: y :: tl).zip (x :: y :: tl).tail
          = (x, y) :: ((y :: tl).zip tl) from rfl] at he
      rcases List.mem_cons.mp he with h1 | h1
      · subst h1
        exact ⟨[], tl, rfl⟩
      · have := zip_tail_mem_adjacent (y :: tl) e (by simpa using h1)
        obtain ⟨xs, ys, hxy⟩ := this
        exact ⟨x :: xs, ys, by simp [hxy]⟩

theorem zip_left_extend : ∀ (l₁ l₂ ex : List String), l₁.length = l₂.length →
    (l₁ ++ ex).zip l₂ = l₁.zip l₂ := by
  intro l₁
  induction l₁ with
  | nil =>
    intro l₂ ex h
    have : l₂ = [] := List.eq_nil_of_length_eq_zero h.symm
    subst this
    simp
  | cons x tl ih =>
    intro l₂ ex h
    match l₂ with
    | y :: l₂' =>
        simp only [List.cons_append, List.zip_cons_cons, List.cons.injEq, true_and]
        exact ih l₂' ex (by simpa using h)

theorem zip_expand (v : String) (a : List String) :
    List.zip (v :: a) (a ++ [v]) = ((v :: a) ++ [v]).zip (a ++ [v]) := by
  rw [zip_left_extend (v :: a) (a ++ [v]) [v] (by simp)]

theorem backWalk_finds (edges : List (String × String)) (R : List String)
    (hstuck : ∀ n ∈ R, hasLivePred edges R n = true) :
    ∀ (fuel : Nat) (u : String) (path : List String),
      u ∈ R → path.Nodup → (∀ x ∈ path, x ∈ R) → path.head? = some u →
      pathChain edges path →
      R.length + 1 ≤ path.length + fuel →
      ∃ v a, backWalk edges R fuel u path = some (v, a)
        ∧ isGenuineCycle edges (List.zip (v :: a) (a ++ [v])) := by
  intro fuel
  induction fuel with
  | zero =>
    intro u path _ hnd hsub _ _ hlen
    have hsp : path.Subperm R := List.subperm_of_subset hnd hsub
    have := hsp.length_le
    omega
  | succ fuel ih =>
    intro u path hu hnd hsub hhead hchain hlen
    obtain ⟨v, hpv⟩ := stuck_pickPred (hstuck u hu)
    obtain ⟨hedge, hvR⟩ := pickPred_some_spec hpv
    have hred : backWalk edges R (fuel + 1) u path
        = (if v ∈ path then some (v, takeUpTo v path)
           else backWalk edges R fuel v (v :: path)) := by
      rw [backWalk, hpv]
    rw [hred]
    by_cases hvp : v ∈ path
    · rw [if_pos hvp]
      obtain ⟨b, hpeq, hnb⟩ := takeUpTo_split hvp
      set a := takeUpTo v path with ha
      refine ⟨v, a, rfl, ?_, ?_, ?_, ?_⟩
      · have hl : (List.zip (v :: a) (a ++ [v])).length = a.length + 1 := by
          rw [List.length_zip]
          simp
        intro hq
        rw [hq] at hl
        simp at hl
      · intro e he
        obtain ⟨e1, e2⟩ := e
        rw [zip_expand] at he
        obtain ⟨xs, ys, hxy⟩ := zip_tail_mem_adjacent _ _ he
        simp only [List.cons_append] at hxy
        match xs, hxy with
        | [], hxy =>
            match a, hpeq, hxy with
            | [], hpeq, hxy =>
                simp only [List.nil_append] at hxy hpeq
                injection hxy with h1 hxy'
                injection hxy' with h2 _
                have hu2 : u = v := by
                  rw [hpeq] at hhead
                  simpa using hhead.symm
                rw [← h1, ← h2]
                exact hu2 ▸ hedge
            | x :: a', hpeq, hxy =>
                simp only [List.nil_append, List.cons_append] at hxy
                injection hxy with h1 hxy'
                injection hxy' with h2 _
                have hu2 : u = x := by
                  rw [hpeq] at hhead
                  simpa using hhead.symm
                rw [← h1, ← h2, ← hu2]
                exact hedge
        | x0 :: xs', hxy =>
            injection hxy with h1 h2
            have hpath2 : path = xs' ++ e1 :: e2 :: (ys ++ b) := by
              rw [hpeq, show a ++ v :: b = (a ++ [v]) ++ b by simp, h2]
              simp
            exact hchain xs' e1 e2 (ys ++ b) hpath2
      · rw [zip_expand]
        exact zip_tail_chain _
      · match a with
        | [] => rfl
        | x :: a' =>
            rw [zip_expand]
            simp only [List.cons_append]
            rw [zip_tail_getLast (a' ++ [v]) v x]
            rw [show ((x :: (a' ++ [v])) : List String).getLast? = some v from by
              rw [show x :: (a' ++ [v]) = (x :: a') ++ [v] from by simp,
                List.getLast?_concat]]
            rfl
    · rw [if_neg hvp]
      have hchain2 : pathChain edges (v :: path) := by
        intro xs y z ys hsplit
        match xs, hsplit with
        | [], hsplit =>
            simp only [List.nil_append] at hsplit
            injection hsplit with hy hsplit'
            have hpz : path = z :: ys := hsplit'
            have hz : z = u := by
              rw [hpz] at hhead
              simpa using hhead
            rw [← hy, hz]
            exact hedge
        | x0 :: xs', hsplit =>
            injection hsplit with _ h2
            exact hchain xs' y z ys h2
      exact ih v (v :: path) hvR (by simp [hnd, hvp]) (by
        intro x hx
        rcases List.mem_cons.mp hx with h1 | h1
        · exact h1 ▸ hvR
        · exact hsub x h1) rfl hchain2 (by simp only [List.length_cons]; omega)

theorem addEdges_closure (ids : List String) :
    ∀ (l acc es : List (String × String)),
      (∀ e ∈ acc, e.1 ∈ ids ∧ e.2 ∈ ids) → addEdges ids l acc = .ok es →
      ∀ e ∈ es, e.1 ∈ ids ∧ e.2 ∈ ids := by
  intro l
  induction l with
  | nil =>
    intro acc es hacc h
    rw [addEdges] at h
    cases h
    exact hacc
  | cons p tl ih =>
    intro acc es hacc h
    obtain ⟨s, t⟩ := p
    rw [addEdges] at h
    by_cases hm : s ∉ ids ∨ t ∉ ids
    · rw [if_pos hm] at h; cases h
    · rw [if_neg hm] at h
      push_neg at hm
      refine ih _ es ?_ h
      intro e he
      by_cases hin : (s, t) ∈ acc
      · rw [if_pos hin] at he
        exact hacc e he
      · rw [if_neg hin] at he
        rcases List.mem_append.mp he with h1 | h1
        · exact hacc e h1
        · have : e = (s, t) := by simpa using h1
          rw [this]
          exact hm

theorem buildGraph_closure {s : SGraph} {g : BGraph} (h : buildGraph s = .ok g) :
    (∀ e ∈ g.edges, e.1 ∈ g.nodeIds ∧ e.2 ∈ g.nodeIds) ∧ g.nodeIds.Nodup
    ∧ g.nodes = s.nodes := by
  rw [buildGraph] at h
  by_cases hnd : ¬ (s.nodes.map (·.id)).Nodup
  · rw [if_pos hnd] at h; cases h
  · rw [if_neg hnd] at h
    push_neg at hnd
    cases hp : checkParams s.nodes with
    | error e => rw [hp] at h; cases h
    | ok _ =>
        rw [hp] at h
        cases ha : addEdges (s.nodes.map (·.id)) s.edges [] with
        | error e => rw [ha] at h; cases h
        | ok es =>
            rw [ha] at h
            cases h
            refine ⟨?_, hnd, rfl⟩
            exact addEdges_closure _ _ _ _ (by intro e he; cases he) ha

theorem cycle_kahn_stuck {g : BGraph} {c : List (String × String)}
    (hcl : ∀ e ∈ g.edges, e.1 ∈ g.nodeIds ∧ e.2 ∈ g.nodeIds)
    (hc : isGenuineCycle g.edges c) : (kahnSort g).2 ≠ [] := by
  obtain ⟨hne, hmem, hch, hclo⟩ := hc
  have hS := cycle_selfSustaining ⟨hne, hmem, hch, hclo⟩
  have hsub : ∀ x ∈ c.map (·.2), x ∈ g.nodeIds := by
    intro x hx
    obtain ⟨e, he, hev⟩ := List.mem_map.mp hx
    exact hev ▸ (hcl e (hmem e he)).2
  have hkeep := kahnRounds_keeps g.edges _ hS (g.nodeIds.length + 1) g.nodeIds hsub
  intro hemp
  rcases hcq : c with _ | ⟨e, tl⟩
  · exact hne hcq
  · have hmem2 : e.2 ∈ (kahnSort g).2 := by
      rw [kahnSort]
      exact hkeep e.2 (by rw [hcq]; simp)
    rw [hemp] at hmem2
    cases hmem2

theorem findCycle_genuine {g : BGraph} (hne : (kahnSort g).2 ≠ []) :
    ∃ cyc, findCycle g = some cyc ∧ isGenuineCycle g.edges cyc := by
  rcases hq : (kahnSort g).2 with _ | ⟨r, tl⟩
  · exact absurd hq hne
  · have hstuck : ∀ n ∈ (kahnSort g).2, hasLivePred g.edges (kahnSort g).2 n = true := by
      have h := kahnRounds_stuck g.edges (g.nodeIds.length + 1) g.nodeIds (by omega)
      rw [kahnSort]
      exact h
    have hr : r ∈ (kahnSort g).2 := by rw [hq]; exact List.mem_cons_self _ _
    have hchain : pathChain g.edges [r] := by
      intro xs y z ys hsp
      have := congrArg List.length hsp
      simp at this
      omega
    obtain ⟨v, a, hbw, hgen⟩ := backWalk_finds g.edges (kahnSort g).2 hstuck
      ((kahnSort g).2.length + 1) r [r] hr (by simp)
      (by intro x hx; rw [List.mem_singleton.mp hx]; exact hr) rfl hchain
      (by simp only [List.length_cons, List.length_nil]; omega)
    refine ⟨List.zip (v :: a) (a ++ [v]), ?_, hgen⟩
    rw [findCycle]
    rw [hq] at hbw
    simp only [hq, hbw]

/-! #### Claim C3 — cycle rejection -/

/-- C3. For a canonical graph that builds successfully (unique ids, dict
params, edges among declared nodes) and whose built edge set contains a
genuine cycle, every execution attempt, with any registry and strategy,
invokes no node callback (the event list is empty) and fails with the
pipeline error whose detail renders one genuine example cycle extracted
by the cycle finder. -/
theorem C3_cycle_rejected {α : Type} (registry : String → Option (NodeType α))
    (strategy : String) (s : SGraph) (g : BGraph) (c : List (String × String))
    (hb : buildGraph s = .ok g) (hc : isGenuineCycle g.edges c) :
    ∃ cyc, findCycle g = some cyc ∧ isGenuineCycle g.edges cyc ∧
      execute_simplified_graph registry s strategy
        = ([], .error ("Pipeline must be a DAG. Found cycle: "
            ++ renderCycle (some cyc))) := by
  have hcl := (buildGraph_closure hb).1
  have hne := cycle_kahn_stuck hcl hc
  obtain ⟨cyc, hfc, hgen⟩ := findCycle_genuine hne
  refine ⟨cyc, hfc, hgen, ?_⟩
  have hval : validateGraph registry s
      = .error ("Pipeline must be a DAG. Found cycle: " ++ renderCycle (findCycle g)) := by
    simp only [validateGraph, hb]
    rw [if_pos (by simpa using hne)]
  simp only [execute_simplified_graph, hval, hfc]

/-- A trivial always-succeeding node kind and a registry holding it. -/
def demoKind : NodeType Unit :=
  { kind := "k", fn := fun _ _ => .ok (), min_inputs := 0, max_inputs := none }

def demoRegistry : String → Option (NodeType Unit) :=
  fun k => if k = "k" then some demoKind else none

/-- A two-node cyclic canonical graph. -/
def cycGraph : SGraph :=
  ⟨[⟨"a", some "k", .obj .nil⟩, ⟨"b", some "k", .obj .nil⟩],
   [("a", "b"), ("b", "a")]⟩

theorem C3_witness :
    buildGraph cycGraph = .ok ⟨cycGraph.nodes, cycGraph.edges⟩
    ∧ isGenuineCycle cycGraph.edges [("a", "b"), ("b", "a")]
    ∧ ∃ cyc, findCycle ⟨cycGraph.nodes, cycGraph.edges⟩ = some cyc
      ∧ isGenuineCycle cycGraph.edges cyc
      ∧ execute_simplified_graph demoRegistry cycGraph "kahn"
        = ([], .error ("Pipeline must be a DAG. Found cycle: "
            ++ renderCycle (some cyc))) :=
  ⟨by rfl, by exact ⟨by decide, by decide, by simp [List.chain'_cons], by rfl⟩,
    C3_cycle_rejected demoRegistry "kahn" cycGraph ⟨cycGraph.nodes, cycGraph.edges⟩
      [("a", "b"), ("b", "a")] (by rfl)
      (by exact ⟨by decide, by decide, by simp [List.chain'_cons], by rfl⟩)⟩

/-- A canonical graph with a cycle between `a` and `b` and one edge to the
undeclared node `c`: the engine rejects it for the dangling edge, before
the DAG check runs, so the reported error contains no cycle. -/
def cycDangling : SGraph :=
  ⟨[⟨"a", some "k", .obj .nil⟩, ⟨"b", some "k", .obj .nil⟩],
   [("a", "b"), ("b", "a"), ("a", "c")]⟩

theorem C3_counterexample :
    isGenuineCycle cycDangling.edges [("a", "b"), ("b", "a")]
    ∧ execute_simplified_graph demoRegistry cycDangling "kahn"
        = ([], .error "Edge refers to missing node: a -> c") := by
  constructor
  · exact ⟨by decide, by decide, by simp [List.chain'_cons], by rfl⟩
  · rfl

/-! #### Claim C7 — input assembly -/

theorem lookupOut_append_some {α : Type} {outs : List (String × α)} {p : String}
    {v : α} (h : lookupOut outs p = some v) (Δ : List (String × α)) :
    lookupOut (outs ++ Δ) p = some v := by
  induction outs with
  | nil => rw [lookupOut] at h; cases h
  | cons e tl ih =>
    obtain ⟨i, w⟩ := e
    rw [lookupOut] at h
    by_cases hip : i = p
    · rw [if_pos hip] at h
      rw [List.cons_append, lookupOut, if_pos hip]
      exact h
    · rw [if_neg hip] at h
      rw [List.cons_append, lookupOut, if_neg hip]
      exact ih h

theorem gatherOuts_append {α : Type} {outs : List (String × α)} :
    ∀ {ps : List String} {vs : List α}, gatherOuts outs ps = .ok vs →
    ∀ Δ, gatherOuts (outs ++ Δ) ps = .ok vs := by
  intro ps
  induction ps with
  | nil => intro vs h Δ; rw [gatherOuts] at h ⊢; exact h
  | cons p tl ih =>
    intro vs h Δ
    rw [gatherOuts] at h
    cases hl : lookupOut outs p with
    | none => rw [hl] at h; cases h
    | some v =>
        rw [hl] at h
        cases hg : gatherOuts outs tl with
        | error e => rw [hg] at h; cases h
        | ok ws =>
            rw [hg] at h
            cases h
            rw [gatherOuts, lookupOut_append_some hl Δ, ih hg Δ]

theorem mkInput_append {α : Type} {outs : List (String × α)} :
    ∀ {ps : List String} {input : NodeInputV α}, mkInput outs ps = .ok input →
    ∀ Δ, mkInput (outs ++ Δ) ps = .ok input := by
  intro ps
  match ps with
  | [] => intro input h Δ; rw [mkInput] at h ⊢; exact h
  | [p] =>
      intro input h Δ
      rw [mkInput] at h ⊢
      cases hl : lookupOut outs p with
      | none => rw [hl] at h; cases h
      | some v =>
          rw [hl] at h
          rw [lookupOut_append_some hl Δ]
          exact h
  | p :: q :: tl =>
      intro input h Δ
      simp only [mkInput] at h ⊢
      cases hg : gatherOuts outs (p :: q :: tl) with
      | error e => rw [hg] at h; cases h
      | ok vs =>
          rw [hg] at h
          rw [gatherOuts_append hg Δ]
          exact h

/-- Every event of a successful run carries the node's predecessor list
and an input reproducible from the final stored outputs. -/
theorem runOrder_event_inputs {α : Type} (registry : String → Option (NodeType α))
    (g : BGraph) :
    ∀ (ord : List String) (outs : List (String × α)) (evs evsF : List (NodeEvent α))
      (outsF : List (String × α)),
      runOrder registry g ord outs evs = (evsF, .ok outsF) →
      (∃ Δ, outsF = outs ++ Δ)
      ∧ ∀ ev ∈ evsF, ev ∈ evs ∨
          (ev.preds = g.preds ev.node_id ∧ mkInput outsF ev.preds = .ok ev.input) := by
  intro ord
  induction ord with
  | nil =>
    intro outs evs evsF outsF h
    rw [runOrder] at h
    injection h with h1 h2
    injection h2 with h3
    subst h1
    subst h3
    exact ⟨⟨[], by simp⟩, fun ev hev => Or.inl hev⟩
  | cons nid rest ih =>
    intro outs evs evsF outsF h
    rw [runOrder] at h
    cases hn : nodeOf g nid with
    | none => simp only [hn] at h; injection h with h1 h2; cases h2
    | some n =>
        simp only [hn] at h
        cases hk : n.kind with
        | none => simp only [hk] at h; injection h with h1 h2; cases h2
        | some k =>
            simp only [hk] at h
            cases hr : registry k with
            | none => simp only [hr] at h; injection h with h1 h2; cases h2
            | some nt =>
                simp only [hr] at h
                cases hmk : mkInput outs (g.preds nid) with
                | error e => simp only [hmk] at h; injection h with h1 h2; cases h2
                | ok input =>
                    simp only [hmk] at h
                    cases hva : nt.validate_arity (g.preds nid).length nid with
                    | error e => simp only [hva] at h; injection h with h1 h2; cases h2
                    | ok _ =>
                        simp only [hva] at h
                        cases hfn : nt.fn input n.params with
                        | error e => simp only [hfn] at h; injection h with h1 h2; cases h2
                        | ok out =>
                            simp only [hfn] at h
                            obtain ⟨⟨Δ, hΔ⟩, hev⟩ := ih _ _ _ _ h
                            refine ⟨⟨(nid, out) :: Δ, by simp [hΔ]⟩, ?_⟩
                            intro ev hevm
                            rcases hev ev hevm with h1 | h1
                            · rcases List.mem_append.mp h1 with h2 | h2
                              · exact Or.inl h2
                              · have hne : ev = ⟨nid, input, out, g.preds nid⟩ := by
                                  simpa using h2
                                refine Or.inr ⟨by rw [hne], ?_⟩
                                rw [hne]
                                have : mkInput outsF (g.preds nid) = .ok input := by
                                  rw [hΔ, List.append_assoc]
                                  exact mkInput_append hmk _
                                exact this
                            · exact Or.inr h1

/-- C7.  In every successful execution of a validated graph, each observer
event's input is: the absent sentinel when the node has no predecessors, the
single predecessor's stored output directly when it has exactly one, and the
ordered list of the predecessors' stored outputs, in predecessor-iteration
order, when it has two or more. -/
theorem C7_node_inputs {α : Type} (registry : String → Option (NodeType α))
    (s : SGraph) (strategy : String) (evs : List (NodeEvent α)) (res : ExecResultM α)
    (h : execute_simplified_graph registry s strategy = (evs, .ok res)) :
    ∃ g, validateGraph registry s = .ok g ∧
      ∀ ev ∈ evs, ev.preds = g.preds ev.node_id
        ∧ (ev.preds = [] → ev.input = .absent)
        ∧ (∀ p, ev.preds = [p] →
            ∃ v, lookupOut res.outputs p = some v ∧ ev.input = .single v)
        ∧ (∀ p q tl, ev.preds = p :: q :: tl →
            ∃ vs, gatherOuts res.outputs ev.preds = .ok vs ∧ ev.input = .multi vs) := by
  cases hv : validateGraph registry s with
  | error e =>
      simp only [execute_simplified_graph, hv] at h
      injection h with h1 h2
      cases h2
  | ok g =>
      refine ⟨g, rfl, ?_⟩
      simp only [execute_simplified_graph, hv] at h
      cases hco : chooseOrder g strategy with
      | error e =>
          simp only [hco] at h
          injection h with h1 h2
          cases h2
      | ok ol =>
          simp only [hco] at h
          cases hrun : runOrder registry g ol.1 [] [] with
          | mk evsR resR =>
              rw [hrun] at h
              cases resR with
              | error e =>
                  simp at h
              | ok outs =>
                  simp only at h
                  injection h with h1 h2
                  injection h2 with h3
                  subst h1
                  obtain ⟨hΔ, hev⟩ := runOrder_event_inputs registry g ol.1 [] [] evsR outs hrun
                  intro ev hevm
                  rcases hev ev hevm with h1 | h1
                  · cases h1
                  · obtain ⟨hpreds, hmk⟩ := h1
                    have houts : res.outputs = outs := by rw [← h3]
                    refine ⟨hpreds, ?_, ?_, ?_⟩
                    · intro hnil
                      rw [hnil] at hmk
                      simp only [mkInput] at hmk
                      injection hmk with h4
                      exact h4.symm
                    · intro p hp
                      rw [hp] at hmk
                      simp only [mkInput] at hmk
                      cases hl : lookupOut outs p with
                      | none => rw [hl] at hmk; cases hmk
                      | some v =>
                          rw [hl] at hmk
                          injection hmk with h4
                          exact ⟨v, by rw [houts]; exact hl, h4.symm⟩
                    · intro p q tl hp
                      rw [hp] at hmk
                      simp only [mkInput] at hmk
                      cases hg2 : gatherOuts outs (p :: q :: tl) with
                      | error e => rw [hg2] at hmk; cases hmk
                      | ok vs =>
                          rw [hg2] at hmk
                          injection hmk with h4
                          exact ⟨vs, by rw [houts, hp]; exact hg2, h4.symm⟩

/-- A three-node join: `a → c ← b`, so `c` has the ordered predecessor
list `[a, b]`. -/
def triGraph : SGraph :=
  ⟨[⟨"a", some "k", .obj .nil⟩, ⟨"b", some "k", .obj .nil⟩, ⟨"c", some "k", .obj .nil⟩],
   [("a", "c"), ("b", "c")]⟩

def triEvents : List (NodeEvent Unit) :=
  [⟨"a", .absent, (), []⟩, ⟨"b", .absent, (), []⟩,
   ⟨"c", .multi [(), ()], (), ["a", "b"]⟩]

def triResult : ExecResultM Unit :=
  ⟨["a", "b", "c"], [("a", ()), ("b", ()), ("c", ())],
   ["a", "b"], ["c"], "breadth-first topological (Kahn)"⟩

theorem C7_witness :
    execute_simplified_graph demoRegistry triGraph "kahn" = (triEvents, .ok triResult)
    ∧ ∃ g, validateGraph demoRegistry triGraph = .ok g ∧
      ∀ ev ∈ triEvents, ev.preds = g.preds ev.node_id
        ∧ (ev.preds = [] → ev.input = .absent)
        ∧ (∀ p, ev.preds = [p] →
            ∃ v, lookupOut triResult.outputs p = some v ∧ ev.input = .single v)
        ∧ (∀ p q tl, ev.preds = p :: q :: tl →
            ∃ vs, gatherOuts triResult.outputs ev.preds = .ok vs ∧ ev.input = .multi vs) :=
  ⟨by rfl, C7_node_inputs demoRegistry triGraph "kahn" triEvents triResult (by rfl)⟩

/-! #### The `dfs` order is topological: rank, stream and dedup lemmas -/

/-- Position of the first occurrence in a list. -/
def posIn (l : List String) (n : String) : Nat :=
  match l with
  | [] => 0
  | x :: tl => if x = n then 0 else posIn tl n + 1

theorem pair_sublist_posIn {u v : String} :
    ∀ {l : List String}, l.Nodup → [u, v].Sublist l → posIn l u < posIn l v := by
  intro l
  induction l with
  | nil => intro _ h; cases h
  | cons x tl ih =>
    intro hnd h
    have hxtl : x ∉ tl := (List.nodup_cons.mp hnd).1
    rcases List.sublist_cons_iff.mp h with h1 | ⟨r, hr, hrs⟩
    · obtain ⟨s, t, hst, hb⟩ := pair_sublist_split h1
      have hu : u ∈ tl := by rw [hst]; simp
      have hv : v ∈ tl := by rw [hst]; simp [hb]
      have hxu : x ≠ u := fun he => hxtl (he ▸ hu)
      have hxv : x ≠ v := fun he => hxtl (he ▸ hv)
      rw [posIn, if_neg hxu, posIn, if_neg hxv]
      have := ih (List.nodup_cons.mp hnd).2 h1
      omega
    · injection hr with hx hr2
      subst hr2
      have hv : v ∈ tl := List.Sublist.mem (List.mem_singleton_self v) hrs
      have hxv : x ≠ v := fun he => hxtl (he ▸ hv)
      rw [posIn, if_pos hx.symm, posIn, if_neg hxv]
      omega

theorem append_eq_append_cons {α : Type} {x : α} :
    ∀ {l₁ l₂ pr t : List α}, l₁ ++ l₂ = pr ++ x :: t →
      (∃ t₁, l₁ = pr ++ x :: t₁ ∧ t = t₁ ++ l₂)
      ∨ (∃ pr₂, l₂ = pr₂ ++ x :: t ∧ pr = l₁ ++ pr₂) := by
  intro l₁
  induction l₁ with
  | nil =>
    intro l₂ pr t h
    exact Or.inr ⟨pr, by simpa using h, by simp⟩
  | cons a l₁' ih =>
    intro l₂ pr t h
    match pr, h with
    | [], h =>
        simp only [List.cons_append, List.nil_append] at h
        injection h with h1 h2
        subst h1
        exact Or.inl ⟨l₁', by simp, h2.symm⟩
    | p :: pr', h =>
        simp only [List.cons_append] at h
        injection h with h1 h2
        subst h1
        rcases ih h2 with ⟨t₁, he, ht⟩ | ⟨pr₂, he, hp⟩
        · exact Or.inl ⟨t₁, by simp [he], ht⟩
        · exact Or.inr ⟨pr₂, he, by simp [hp]⟩

/-- Every node of the stream has all its graph successors emitted earlier. -/
def StreamGood (edges : List (String × String)) (l : List String) : Prop :=
  ∀ pr x t, l = pr ++ x :: t → ∀ y, (x, y) ∈ edges → y ∈ pr

theorem streamGood_append {edges : List (String × String)} {l₁ l₂ : List String}
    (h1 : StreamGood edges l₁) (h2 : StreamGood edges l₂) :
    StreamGood edges (l₁ ++ l₂) := by
  intro pr x t heq y hy
  rcases append_eq_append_cons heq with ⟨t₁, he, _⟩ | ⟨pr₂, he, hp⟩
  · exact h1 pr x t₁ he y hy
  · have := h2 pr₂ x t he y hy
    rw [hp]
    exact List.mem_append.mpr (Or.inr this)

theorem streamGood_nil (edges : List (String × String)) : StreamGood edges [] := by
  intro pr x t heq y hy
  exfalso
  have h2 := congrArg List.length heq
  simp only [List.length_nil, List.length_append, List.length_cons] at h2
  omega

theorem dedup_mem : ∀ (l seen : List String) (x : String),
    x ∈ dedupKeepFirst seen l ↔ x ∈ l ∧ x ∉ seen := by
  intro l
  induction l with
  | nil => intro seen x; simp [dedupKeepFirst]
  | cons z tl ih =>
    intro seen x
    rw [dedupKeepFirst]
    by_cases hz : z ∈ seen
    · rw [if_pos hz, ih]
      constructor
      · rintro ⟨h1, h2⟩
        exact ⟨List.mem_cons.mpr (Or.inr h1), h2⟩
      · rintro ⟨h1, h2⟩
        rcases List.mem_cons.mp h1 with h3 | h3
        · exact absurd (h3 ▸ hz) h2
        · exact ⟨h3, h2⟩
    · rw [if_neg hz]
      by_cases hxz : x = z
      · subst hxz
        simp [hz]
      · constructor
        · intro h1
          rcases List.mem_cons.mp h1 with h3 | h3
          · exact absurd h3 hxz
          · have := (ih (seen ++ [z]) x).mp h3
            refine ⟨List.mem_cons.mpr (Or.inr this.1), ?_⟩
            intro hm
            exact this.2 (List.mem_append.mpr (Or.inl hm))
        · rintro ⟨h1, h2⟩
          rcases List.mem_cons.mp h1 with h3 | h3
          · exact absurd h3 hxz
          · refine List.mem_cons.mpr (Or.inr ((ih (seen ++ [z]) x).mpr ⟨h3, ?_⟩))
            intro hm
            rcases List.mem_append.mp hm with h4 | h4
            · exact h2 h4
            · exact hxz (by simpa using h4)

theorem dedup_nodup : ∀ (l seen : List String), (dedupKeepFirst seen l).Nodup := by
  intro l
  induction l with
  | nil => intro seen; simp [dedupKeepFirst]
  | cons z tl ih =>
    intro seen
    rw [dedupKeepFirst]
    by_cases hz : z ∈ seen
    · rw [if_pos hz]; exact ih seen
    · rw [if_neg hz]
      refine List.nodup_cons.mpr ⟨?_, ih (seen ++ [z])⟩
      intro hm
      exact ((dedup_mem tl (seen ++ [z]) z).mp hm).2 (by simp)

theorem dedup_prefix_mem : ∀ (l seen a : List String) (x : String) (b : List String),
    dedupKeepFirst seen l = a ++ x :: b →
    ∃ s t, l = s ++ x :: t ∧ ∀ y ∈ s, y ∈ seen ∨ y ∈ a := by
  intro l
  induction l with
  | nil =>
    intro seen a x b h
    rw [dedupKeepFirst] at h
    exfalso
    have h2 := congrArg List.length h
    simp only [List.length_nil, List.length_append, List.length_cons] at h2
    omega
  | cons z tl ih =>
    intro seen a x b h
    rw [dedupKeepFirst] at h
    by_cases hz : z ∈ seen
    · rw [if_pos hz] at h
      obtain ⟨s, t, hst, hy⟩ := ih seen a x b h
      exact ⟨z :: s, t, by simp [hst], by
        intro y hy2
        rcases List.mem_cons.mp hy2 with h3 | h3
        · exact Or.inl (h3 ▸ hz)
        · exact hy y h3⟩
    · rw [if_neg hz] at h
      match a, h with
      | [], h =>
          injection h with h1 h2
          subst h1
          exact ⟨[], tl, rfl, by intro y hy; cases hy⟩
      | a0 :: a', h =>
          injection h with h1 h2
          obtain ⟨s, t, hst, hy⟩ := ih (seen ++ [z]) a' x b h2
          refine ⟨z :: s, t, by simp [hst], ?_⟩
          intro y hy2
          rcases List.mem_cons.mp hy2 with h3 | h3
          · exact Or.inr (by rw [h3, h1]; exact List.mem_cons_self _ _)
          · rcases hy y h3 with h4 | h4
            · rcases List.mem_append.mp h4 with h5 | h5
              · exact Or.inl h5
              · refine Or.inr (List.mem_cons.mpr (Or.inl ?_))
                rw [show y = z from by simpa using h5, h1]
            · exact Or.inr (List.mem_cons.mpr (Or.inr h4))

theorem dedup_streamGood {edges : List (String × String)} {raw : List String}
    (h : StreamGood edges raw) : StreamGood edges (dedupKeepFirst [] raw) := by
  intro pr x t heq y hy
  obtain ⟨s, u, hsu, hmem⟩ := dedup_prefix_mem raw [] pr x t heq
  have := h s x u hsu y hy
  rcases hmem y this with h1 | h1
  · cases h1
  · exact h1

/-- The shared fold step of the depth-first traversals. -/
def dfsStep (edges : List (String × String)) (fuel : Nat)
    (acc : List String × List String) (v : String) : List String × List String :=
  ((dfsVisit edges fuel acc.1 v).1, acc.2 ++ (dfsVisit edges fuel acc.1 v).2)

theorem dfsVisit_succ (edges : List (String × String)) (fuel : Nat)
    (vis : List String) (u : String) :
    dfsVisit edges (fuel + 1) vis u =
      if u ∈ vis then (vis, [])
      else
        ((((edges.filter fun e => e.1 = u).map (·.2)).foldl
            (dfsStep edges fuel) (vis ++ [u], [])).1,
         (((edges.filter fun e => e.1 = u).map (·.2)).foldl
            (dfsStep edges fuel) (vis ++ [u], [])).2 ++ [u]) := rfl

theorem dfsForest_eq (edges : List (String × String)) (fuel : Nat)
    (nodes : List String) :
    dfsForest edges fuel nodes = (nodes.foldl (dfsStep edges fuel) ([], [])).2 := rfl

theorem nil_eq_append_cons {α : Type} {pr t : List α} {x : α}
    (h : ([] : List α) = pr ++ x :: t) : False := by
  have h2 := congrArg List.length h
  simp only [List.length_nil, List.length_append, List.length_cons] at h2
  omega

theorem mem_succs_of_edge {edges : List (String × String)} {u y : String}
    (h : (u, y) ∈ edges) : y ∈ (edges.filter fun e => e.1 = u).map (·.2) :=
  List.mem_map.mpr ⟨(u, y), List.mem_filter.mpr ⟨h, by simp⟩, rfl⟩

theorem succs_rank {edges : List (String × String)} {rank : String → Nat}
    (hrank : ∀ e ∈ edges, rank e.1 < rank e.2) (u : String) :
    ∀ v ∈ (edges.filter fun e => e.1 = u).map (·.2), rank u < rank v := by
  intro v hv
  obtain ⟨e, he, hev⟩ := List.mem_map.mp hv
  have hm := List.mem_filter.mp he
  have h1 : e.1 = u := by simpa using hm.2
  have := hrank e hm.1
  rw [h1, hev] at this
  exact this

theorem succs_mem {edges : List (String × String)} {N : List String}
    (hE : ∀ e ∈ edges, e.1 ∈ N ∧ e.2 ∈ N) (u : String) :
    ∀ v ∈ (edges.filter fun e => e.1 = u).map (·.2), v ∈ N := by
  intro v hv
  obtain ⟨e, he, hev⟩ := List.mem_map.mp hv
  exact hev ▸ (hE e (List.mem_filter.mp he).1).2

/-- What one depth-first visit guarantees: visited only grows, stays
nodup inside the node set, the emitted postorder is exactly the newly
visited nodes, and every emitted node's successors were already complete
(`dn`) or emitted earlier in the same stream. -/
def VisitOut (edges : List (String × String)) (N vis dn : List String)
    (res : List String × List String) : Prop :=
  (∃ Δ, res.1 = vis ++ Δ) ∧ res.1.Nodup ∧ (∀ x ∈ res.1, x ∈ N)
  ∧ (∀ x, x ∈ res.1 ↔ x ∈ vis ∨ x ∈ res.2)
  ∧ res.2.Nodup ∧ (∀ x ∈ res.2, x ∉ vis)
  ∧ (∀ pr x t, res.2 = pr ++ x :: t → ∀ y, (x, y) ∈ edges → y ∈ dn ∨ y ∈ pr)

theorem dfsFold_spec (edges : List (String × String)) (N : List String)
    (rank : String → Nat) (fuel : Nat)
    (hvisit : ∀ (vis : List String) (u : String) (G dn : List String),
      u ∈ N → vis.Nodup → (∀ x ∈ vis, x ∈ N) →
      N.length + 1 ≤ fuel + vis.length →
      (∀ x, x ∈ vis ↔ x ∈ dn ∨ x ∈ G) →
      (∀ a ∈ G, rank a < rank u) →
      VisitOut edges N vis dn (dfsVisit edges fuel vis u)
      ∧ u ∈ (dfsVisit edges fuel vis u).1) :
    ∀ (vs vis acc G dn : List String),
      vis.Nodup → (∀ x ∈ vis, x ∈ N) →
      N.length + 1 ≤ fuel + vis.length →
      (∀ x, x ∈ vis ↔ x ∈ dn ∨ x ∈ G) →
      (∀ v ∈ vs, v ∈ N) →
      (∀ v ∈ vs, ∀ a ∈ G, rank a < rank v) →
      ∃ post,
        (vs.foldl (dfsStep edges fuel) (vis, acc)).2 = acc ++ post
        ∧ VisitOut edges N vis dn ((vs.foldl (dfsStep edges fuel) (vis, acc)).1, post)
        ∧ ∀ v ∈ vs, v ∈ (vs.foldl (dfsStep edges fuel) (vis, acc)).1 := by
  intro vs
  induction vs with
  | nil =>
    intro vis acc G dn hnd hsub _ _ _ _
    refine ⟨[], by simp, ⟨⟨[], by simp⟩, hnd, hsub, by simp, by simp, by simp, ?_⟩, by simp⟩
    intro pr x t heq
    exact absurd heq (fun h => nil_eq_append_cons h)
  | cons v vs' ih =>
    intro vis acc G dn hnd hsub hfuel hpart hvsN hvsrank
    rcases hdv : dfsVisit edges fuel vis v with ⟨vis₁, p₁⟩
    have hv := hvisit vis v G dn (hvsN v (by simp)) hnd hsub hfuel hpart
      (fun a ha => hvsrank v (by simp) a ha)
    rw [hdv] at hv
    simp only [VisitOut] at hv
    obtain ⟨⟨⟨Δ, hΔ⟩, hnd₁, hsub₁, hiff₁, hpnd₁, hpdis₁, hstr₁⟩, hvmem⟩ := hv
    have hstep : dfsStep edges fuel (vis, acc) v = (vis₁, acc ++ p₁) := by
      show ((dfsVisit edges fuel vis v).1, acc ++ (dfsVisit edges fuel vis v).2)
        = (vis₁, acc ++ p₁)
      rw [hdv]
    have hih := ih vis₁ (acc ++ p₁) G (dn ++ p₁) hnd₁ hsub₁
      (by have := congrArg List.length hΔ; simp at this; omega)
      (by
        intro x
        rw [hiff₁ x, hpart x]
        simp only [List.mem_append]
        tauto)
      (fun w hw => hvsN w (by simp [hw]))
      (fun w hw a ha => hvsrank w (by simp [hw]) a ha)
    simp only [VisitOut] at hih
    obtain ⟨post', hpost'2, ⟨⟨Δ', hΔ'⟩, hndR, hsubR, hiffR, hpnd₂, hpdis₂, hstr₂⟩, hall₂⟩ := hih
    rw [List.foldl_cons, hstep]
    simp only [VisitOut]
    refine ⟨p₁ ++ post', by rw [hpost'2, List.append_assoc], ?_, ?_⟩
    · refine ⟨⟨Δ ++ Δ', by rw [hΔ', hΔ, List.append_assoc]⟩, hndR, hsubR, ?_, ?_, ?_, ?_⟩
      · intro x
        rw [hiffR x, hiff₁ x]
        simp only [List.mem_append]
        tauto
      · refine List.Nodup.append hpnd₁ hpnd₂ ?_
        intro x hx hx2
        exact hpdis₂ x hx2 ((hiff₁ x).mpr (Or.inr hx))
      · intro x hx
        rcases List.mem_append.mp hx with h1 | h1
        · exact hpdis₁ x h1
        · intro hxv
          exact hpdis₂ x h1 ((hiff₁ x).mpr (Or.inl hxv))
      · intro pr x t heq y hy
        rcases append_eq_append_cons heq with ⟨t₁, he, _⟩ | ⟨pr₂, he, hp⟩
        · exact hstr₁ pr x t₁ he y hy
        · rcases hstr₂ pr₂ x t he y hy with h1 | h1
          · rcases List.mem_append.mp h1 with h2 | h2
            · exact Or.inl h2
            · exact Or.inr (by rw [hp]; exact List.mem_append.mpr (Or.inl h2))
          · exact Or.inr (by rw [hp]; exact List.mem_append.mpr (Or.inr h1))
    · intro w hw
      rcases List.mem_cons.mp hw with h1 | h1
      · rw [h1, hΔ']
        exact List.mem_append.mpr (Or.inl hvmem)
      · exact hall₂ w h1

theorem dfsVisit_spec (edges : List (String × String)) (N : List String)
    (rank : String → Nat)
    (hrank : ∀ e ∈ edges, rank e.1 < rank e.2)
    (hE : ∀ e ∈ edges, e.1 ∈ N ∧ e.2 ∈ N) :
    ∀ (fuel : Nat) (vis : List String) (u : String) (G dn : List String),
      u ∈ N → vis.Nodup → (∀ x ∈ vis, x ∈ N) →
      N.length + 1 ≤ fuel + vis.length →
      (∀ x, x ∈ vis ↔ x ∈ dn ∨ x ∈ G) →
      (∀ a ∈ G, rank a < rank u) →
      VisitOut edges N vis dn (dfsVisit edges fuel vis u)
      ∧ u ∈ (dfsVisit edges fuel vis u).1 := by
  intro fuel
  induction fuel with
  | zero =>
    intro vis u G dn _ hnd hsub hfuel _ _
    exfalso
    have hsp : vis.Subperm N := List.subperm_of_subset hnd hsub
    have := hsp.length_le
    omega
  | succ fuel ih =>
    intro vis u G dn hu hnd hsub hfuel hpart hG
    rw [dfsVisit_succ]
    by_cases hvm : u ∈ vis
    · rw [if_pos hvm]
      simp only [VisitOut]
      refine ⟨⟨⟨[], by simp⟩, hnd, hsub, by simp, by simp, by simp, ?_⟩, hvm⟩
      intro pr x t heq
      exact absurd heq (fun h => nil_eq_append_cons h)
    · rw [if_neg hvm]
      have hnd₁ : (vis ++ [u]).Nodup := by
        simp [List.nodup_append, hnd, hvm]
      have hsub₁ : ∀ x ∈ vis ++ [u], x ∈ N := by
        intro x hx
        rcases List.mem_append.mp hx with h1 | h1
        · exact hsub x h1
        · rw [show x = u from by simpa using h1]
          exact hu
      have hfold := dfsFold_spec edges N rank fuel ih
        ((edges.filter fun e => e.1 = u).map (·.2)) (vis ++ [u]) [] (G ++ [u]) dn
        hnd₁ hsub₁
        (by simp only [List.length_append, List.length_cons, List.length_nil]; omega)
        (by
          intro x
          simp only [List.mem_append, List.mem_singleton]
          rw [hpart x]
          tauto)
        (succs_mem hE u)
        (by
          intro v hv a ha
          have h2 := succs_rank hrank u v hv
          rcases List.mem_append.mp ha with h1 | h1
          · have := hG a h1
            omega
          · rw [show a = u from by simpa using h1]
            exact h2)
      simp only [VisitOut] at hfold
      obtain ⟨post, hpost2, ⟨⟨Δ, hΔ⟩, hndR, hsubR, hiffR, hpnd, hpdis, hstr⟩, hall⟩ := hfold
      simp only [List.nil_append] at hpost2
      rw [hpost2]
      simp only [VisitOut]
      refine ⟨⟨⟨[u] ++ Δ, by rw [hΔ, List.append_assoc]⟩, hndR, hsubR, ?_, ?_, ?_, ?_⟩, ?_⟩
      · intro x
        rw [hiffR x]
        simp only [List.mem_append, List.mem_singleton]
        tauto
      · refine List.Nodup.append hpnd (List.nodup_singleton u) ?_
        intro x hx hx2
        rw [show x = u from by simpa using hx2] at hx
        exact hpdis u hx (by simp)
      · intro x hx
        rcases List.mem_append.mp hx with h1 | h1
        · intro hxv
          exact hpdis x h1 (List.mem_append.mpr (Or.inl hxv))
        · rw [show x = u from by simpa using h1]
          exact hvm
      · intro pr x t heq y hy
        rcases append_eq_append_cons heq with ⟨t₁, he, _⟩ | ⟨pr₂, he, hp⟩
        · exact hstr pr x t₁ he y hy
        · match pr₂, he with
          | [], he =>
              injection he with he1 he2
              subst he1
              have hy2 : y ∈ (edges.filter fun e => e.1 = u).map (·.2) :=
                mem_succs_of_edge hy
              have hy3 := hall y hy2
              rcases (hiffR y).mp hy3 with h1 | h1
              · rcases List.mem_append.mp h1 with h2 | h2
                · rcases (hpart y).mp h2 with h3 | h3
                  · exact Or.inl h3
                  · have h4 := hG y h3
                    have h5 : rank u < rank y := hrank (u, y) hy
                    omega
                · have h5 : rank u < rank y := hrank (u, y) hy
                  rw [show y = u from by simpa using h2] at h5
                  omega
              · rw [hp]
                simp only [List.append_nil]
                exact Or.inr h1
          | q :: pr₂', he =>
              exfalso
              injection he with he1 he2
              exact nil_eq_append_cons he2
      · rw [hΔ]
        exact List.mem_append.mpr (Or.inl (by simp))

theorem mem_preds_iff (g : BGraph) (p n : String) :
    p ∈ g.preds n ↔ (p, n) ∈ g.edges := by
  rw [BGraph.preds]
  constructor
  · intro h
    obtain ⟨e, he, hev⟩ := List.mem_map.mp h
    obtain ⟨e1, e2⟩ := e
    have h2 := List.mem_filter.mp he
    have h3 : e2 = n := by simpa using h2.2
    have h4 : e1 = p := by simpa using hev
    rw [← h3, ← h4]
    exact h2.1
  · intro h
    exact List.mem_map.mpr ⟨(p, n), List.mem_filter.mpr ⟨h, by simp⟩, rfl⟩

theorem segs_spec (g : BGraph) (rank : String → Nat)
    (hrank : ∀ e ∈ g.edges, rank e.1 < rank e.2)
    (hE : ∀ e ∈ g.edges, e.1 ∈ g.nodeIds ∧ e.2 ∈ g.nodeIds) :
    ∀ srcs : List String, (∀ s ∈ srcs, s ∈ g.nodeIds) →
      StreamGood g.edges
        ((srcs.map fun src => (dfsVisit g.edges (g.nodeIds.length + 1) [] src).2).flatten)
      ∧ ∀ x ∈ (srcs.map fun src =>
            (dfsVisit g.edges (g.nodeIds.length + 1) [] src).2).flatten,
          x ∈ g.nodeIds := by
  intro srcs
  induction srcs with
  | nil =>
    intro _
    exact ⟨streamGood_nil _, by simp⟩
  | cons src rest ih =>
    intro hsub
    obtain ⟨ihs, ihm⟩ := ih (fun s hs => hsub s (by simp [hs]))
    have hv := dfsVisit_spec g.edges g.nodeIds rank hrank hE
      (g.nodeIds.length + 1) [] src [] []
      (hsub src (by simp)) (by simp) (by simp) (by simp) (by simp) (by simp)
    simp only [VisitOut] at hv
    obtain ⟨⟨_, _, hsubR, hiffR, _, _, hstr⟩, _⟩ := hv
    have hseg : StreamGood g.edges (dfsVisit g.edges (g.nodeIds.length + 1) [] src).2 := by
      intro pr x t heq y hy
      rcases hstr pr x t heq y hy with h1 | h1
      · cases h1
      · exact h1
    have hsegm : ∀ x ∈ (dfsVisit g.edges (g.nodeIds.length + 1) [] src).2, x ∈ g.nodeIds := by
      intro x hx
      exact hsubR x ((hiffR x).mpr (Or.inr hx))
    rw [List.map_cons, List.flatten_cons]
    refine ⟨streamGood_append hseg ihs, ?_⟩
    intro x hx
    rcases List.mem_append.mp hx with h1 | h1
    · exact hsegm x h1
    · exact ihm x h1

theorem forest_spec (g : BGraph) (rank : String → Nat)
    (hrank : ∀ e ∈ g.edges, rank e.1 < rank e.2)
    (hE : ∀ e ∈ g.edges, e.1 ∈ g.nodeIds ∧ e.2 ∈ g.nodeIds) :
    StreamGood g.edges (dfsForest g.edges (g.nodeIds.length + 1) g.nodeIds)
    ∧ (∀ n ∈ g.nodeIds, n ∈ dfsForest g.edges (g.nodeIds.length + 1) g.nodeIds)
    ∧ (∀ x ∈ dfsForest g.edges (g.nodeIds.length + 1) g.nodeIds, x ∈ g.nodeIds) := by
  have hfold := dfsFold_spec g.edges g.nodeIds rank (g.nodeIds.length + 1)
    (dfsVisit_spec g.edges g.nodeIds rank hrank hE (g.nodeIds.length + 1))
    g.nodeIds [] [] [] []
    (by simp) (by simp) (by simp) (by simp) (fun v hv => hv) (by simp)
  simp only [VisitOut] at hfold
  obtain ⟨post, hpost2, ⟨_, _, hsubR, hiffR, _, _, hstr⟩, hall⟩ := hfold
  simp only [List.nil_append] at hpost2
  rw [dfsForest_eq, hpost2]
  refine ⟨?_, ?_, ?_⟩
  · intro pr x t heq y hy
    rcases hstr pr x t heq y hy with h1 | h1
    · cases h1
    · exact h1
  · intro n hn
    have := hall n hn
    rcases (hiffR n).mp this with h1 | h1
    · cases h1
    · exact h1
  · intro x hx
    exact hsubR x ((hiffR x).mpr (Or.inr hx))

theorem rawPost_spec (g : BGraph) (rank : String → Nat)
    (hrank : ∀ e ∈ g.edges, rank e.1 < rank e.2)
    (hE : ∀ e ∈ g.edges, e.1 ∈ g.nodeIds ∧ e.2 ∈ g.nodeIds) :
    StreamGood g.edges (rawPost g)
    ∧ (∀ n ∈ g.nodeIds, n ∈ rawPost g)
    ∧ (∀ n ∈ rawPost g, n ∈ g.nodeIds) := by
  have hsrc : ∀ s ∈ g.sources, s ∈ g.nodeIds := by
    intro s hs
    exact (List.mem_filter.mp hs).1
  obtain ⟨hsegSG, hsegM⟩ := segs_spec g rank hrank hE g.sources hsrc
  obtain ⟨hfSG, hfC, hfM⟩ := forest_spec g rank hrank hE
  rw [rawPost]
  refine ⟨streamGood_append hsegSG hfSG, ?_, ?_⟩
  · intro n hn
    exact List.mem_append.mpr (Or.inr (hfC n hn))
  · intro n hn
    rcases List.mem_append.mp hn with h1 | h1
    · exact hsegM n h1
    · exact hfM n h1

theorem dfsOrder_spec (g : BGraph) (rank : String → Nat)
    (hrank : ∀ e ∈ g.edges, rank e.1 < rank e.2)
    (hE : ∀ e ∈ g.edges, e.1 ∈ g.nodeIds ∧ e.2 ∈ g.nodeIds) :
    (dfsOrder g).Nodup
    ∧ (∀ n ∈ g.nodeIds, n ∈ dfsOrder g)
    ∧ (∀ n ∈ dfsOrder g, n ∈ g.nodeIds)
    ∧ (∀ pr n rest, dfsOrder g = pr ++ n :: rest → ∀ p ∈ g.preds n, p ∈ pr) := by
  obtain ⟨hSGraw, hCraw, hMraw⟩ := rawPost_spec g rank hrank hE
  have hSG : StreamGood g.edges (dedupKeepFirst [] (rawPost g)) :=
    dedup_streamGood hSGraw
  have hdnd : (dedupKeepFirst [] (rawPost g)).Nodup := dedup_nodup _ _
  refine ⟨?_, ?_, ?_, ?_⟩
  · rw [dfsOrder]
    exact List.nodup_reverse.mpr hdnd
  · intro n hn
    rw [dfsOrder, List.mem_reverse, dedup_mem]
    exact ⟨hCraw n hn, by simp⟩
  · intro n hn
    rw [dfsOrder, List.mem_reverse, dedup_mem] at hn
    exact hMraw n hn.1
  · intro pr n rest heq p hp
    have hedge : (p, n) ∈ g.edges := (mem_preds_iff g p n).mp hp
    have hpN : p ∈ g.nodeIds := (hE _ hedge).1
    have hpd : p ∈ dedupKeepFirst [] (rawPost g) := by
      rw [dedup_mem]
      exact ⟨hCraw p hpN, by simp⟩
    have hd : dedupKeepFirst [] (rawPost g) = rest.reverse ++ n :: pr.reverse := by
      have h1 : dedupKeepFirst [] (rawPost g) = (dfsOrder g).reverse := by
        rw [dfsOrder, List.reverse_reverse]
      rw [h1, heq]
      simp
    rcases List.mem_append.mp (hd ▸ hpd) with h1 | h1
    · obtain ⟨a, b, hab⟩ := List.append_of_mem h1
      have hd2 : dedupKeepFirst [] (rawPost g)
          = a ++ p :: (b ++ n :: pr.reverse) := by
        rw [hd, hab]
        simp
      have hnmem : n ∈ a := hSG a p (b ++ n :: pr.reverse) hd2 n hedge
      exfalso
      have hnd2 := hd2 ▸ hdnd
      have hdis := (List.nodup_append.mp hnd2).2.2
      exact hdis hnmem (by simp)
    · rcases List.mem_cons.mp h1 with h2 | h2
      · exfalso
        have h5 : rank p < rank n := hrank (p, n) hedge
        rw [h2] at h5
        omega
      · exact List.mem_reverse.mp h2

theorem kahnOrder_spec (g : BGraph)
    (hnd : g.nodeIds.Nodup)
    (hE : ∀ e ∈ g.edges, e.1 ∈ g.nodeIds ∧ e.2 ∈ g.nodeIds)
    (hacyc : (kahnSort g).2 = []) :
    (kahnSort g).1.Nodup
    ∧ (∀ n ∈ g.nodeIds, n ∈ (kahnSort g).1)
    ∧ (∀ n ∈ (kahnSort g).1, n ∈ g.nodeIds)
    ∧ (∀ u v, (u, v) ∈ g.edges → [u, v].Sublist (kahnSort g).1)
    ∧ (∀ pr n rest, (kahnSort g).1 = pr ++ n :: rest → ∀ p ∈ g.preds n, p ∈ pr) := by
  obtain ⟨h1, h2, h3, h4, h5⟩ :=
    kahnRounds_spec g.edges (g.nodeIds.length + 1) g.nodeIds hnd
  rw [kahnSort] at hacyc
  have hcomp : ∀ n ∈ g.nodeIds, n ∈ (kahnSort g).1 := by
    intro n hn
    rw [kahnSort]
    rcases h4 n hn with h | h
    · exact h
    · rw [hacyc] at h
      cases h
  have htopo : ∀ u v, (u, v) ∈ g.edges → [u, v].Sublist (kahnSort g).1 := by
    intro u v he
    rw [kahnSort]
    exact h5 u v he (hE _ he).1 (by
      have := hcomp v (hE _ he).2
      rw [kahnSort] at this
      exact this)
  refine ⟨by rw [kahnSort]; exact h1, hcomp, ?_, htopo, ?_⟩
  · intro n hn
    rw [kahnSort] at hn
    exact h2 n hn
  · intro pr n rest heq p hp
    have hedge : (p, n) ∈ g.edges := (mem_preds_iff g p n).mp hp
    exact pair_sublist_before (by rw [kahnSort]; exact h1) (htopo p n hedge) pr rest heq

/-! #### Runs along two topological orders agree -/

theorem lookupOut_none_of_not_mem {α : Type} {outs : List (String × α)} {p : String}
    (h : p ∉ outs.map Prod.fst) : lookupOut outs p = none := by
  induction outs with
  | nil => rw [lookupOut]
  | cons e tl ih =>
    obtain ⟨i, w⟩ := e
    rw [lookupOut]
    have hip : i ≠ p := by
      intro he
      exact h (by simp [he])
    rw [if_neg hip]
    exact ih (fun hm => h (by simp at hm ⊢; exact Or.inr hm))

theorem lookupOut_append_none {α : Type} {outs : List (String × α)} {p : String}
    (h : lookupOut outs p = none) (l₂ : List (String × α)) :
    lookupOut (outs ++ l₂) p = lookupOut l₂ p := by
  induction outs with
  | nil => simp
  | cons e tl ih =>
    obtain ⟨i, w⟩ := e
    rw [lookupOut] at h
    by_cases hip : i = p
    · rw [if_pos hip] at h; cases h
    · rw [if_neg hip] at h
      rw [List.cons_append, lookupOut, if_neg hip]
      exact ih h

theorem lookupOut_mem_some {α : Type} {outs : List (String × α)} {p : String}
    (h : p ∈ outs.map Prod.fst) : ∃ v, lookupOut outs p = some v := by
  induction outs with
  | nil => cases h
  | cons e tl ih =>
    obtain ⟨i, w⟩ := e
    rw [List.map_cons] at h
    by_cases hip : i = p
    · exact ⟨w, by rw [lookupOut, if_pos hip]⟩
    · rcases List.mem_cons.mp h with h1 | h1
      · exact absurd h1.symm hip
      · obtain ⟨v, hv⟩ := ih h1
        exact ⟨v, by rw [lookupOut, if_neg hip]; exact hv⟩

theorem gatherOuts_congr {α : Type} {o₁ o₂ : List (String × α)} :
    ∀ {ps : List String}, (∀ p ∈ ps, lookupOut o₁ p = lookupOut o₂ p) →
      gatherOuts o₁ ps = gatherOuts o₂ ps := by
  intro ps
  induction ps with
  | nil => intro _; rw [gatherOuts, gatherOuts]
  | cons p tl ih =>
    intro h
    rw [gatherOuts, gatherOuts, h p (by simp), ih (fun q hq => h q (by simp [hq]))]

theorem mkInput_congr {α : Type} {o₁ o₂ : List (String × α)} :
    ∀ {ps : List String}, (∀ p ∈ ps, lookupOut o₁ p = lookupOut o₂ p) →
      mkInput o₁ ps = mkInput o₂ ps := by
  intro ps
  match ps with
  | [] => intro _; rw [mkInput, mkInput]
  | [p] =>
      intro h
      rw [mkInput, mkInput, h p (by simp)]
  | p :: q :: tl =>
      intro h
      simp only [mkInput]
      rw [gatherOuts_congr h]

/-- A node is well-executed relative to a reference output store: all its
pipeline data exists and its stored output is the one its callback returns
on the input assembled from the store. -/
def GoodAt {α : Type} (registry : String → Option (NodeType α)) (g : BGraph)
    (outs : List (String × α)) (n : String) : Prop :=
  ∃ sn k nt input out,
    nodeOf g n = some sn ∧ sn.kind = some k ∧ registry k = some nt
    ∧ mkInput outs (g.preds n) = .ok input
    ∧ nt.validate_arity (g.preds n).length n = .ok ()
    ∧ nt.fn input sn.params = .ok out
    ∧ lookupOut outs n = some out

theorem runOrder_ok_spec {α : Type} (registry : String → Option (NodeType α))
    (g : BGraph) :
    ∀ (ord : List String) (outs : List (String × α)) (evs evsF : List (NodeEvent α))
      (outsF : List (String × α)),
      ord.Nodup → (∀ n ∈ ord, n ∉ outs.map Prod.fst) →
      runOrder registry g ord outs evs = (evsF, .ok outsF) →
      (∃ Δ, outsF = outs ++ Δ ∧ Δ.map Prod.fst = ord)
      ∧ (∀ n ∈ ord, GoodAt registry g outsF n) := by
  intro ord
  induction ord with
  | nil =>
    intro outs evs evsF outsF _ _ h
    rw [runOrder] at h
    injection h with h1 h2
    injection h2 with h3
    subst h3
    exact ⟨⟨[], by simp⟩, by intro n hn; cases hn⟩
  | cons nid rest ih =>
    intro outs evs evsF outsF hnd hfresh h
    rw [runOrder] at h
    cases hn : nodeOf g nid with
    | none => simp only [hn] at h; injection h with h1 h2; cases h2
    | some sn =>
        simp only [hn] at h
        cases hk : sn.kind with
        | none => simp only [hk] at h; injection h with h1 h2; cases h2
        | some k =>
            simp only [hk] at h
            cases hr : registry k with
            | none => simp only [hr] at h; injection h with h1 h2; cases h2
            | some nt =>
                simp only [hr] at h
                cases hmk : mkInput outs (g.preds nid) with
                | error e => simp only [hmk] at h; injection h with h1 h2; cases h2
                | ok input =>
                    simp only [hmk] at h
                    cases hva : nt.validate_arity (g.preds nid).length nid with
                    | error e => simp only [hva] at h; injection h with h1 h2; cases h2
                    | ok a =>
                        obtain ⟨⟩ := a
                        simp only [hva] at h
                        cases hfn : nt.fn input sn.params with
                        | error e => simp only [hfn] at h; injection h with h1 h2; cases h2
                        | ok out =>
                            simp only [hfn] at h
                            have hfr : nid ∉ outs.map Prod.fst := hfresh nid (by simp)
                            obtain ⟨⟨Δ, hΔ, hΔk⟩, hgood⟩ := ih _ _ _ _
                              (List.nodup_cons.mp hnd).2
                              (by
                                intro n hn2
                                simp only [List.map_append, List.map_cons, List.map_nil]
                                intro hm
                                rcases List.mem_append.mp hm with h1 | h1
                                · exact hfresh n (by simp [hn2]) h1
                                · have : n = nid := by simpa using h1
                                  exact (List.nodup_cons.mp hnd).1 (this ▸ hn2))
                              h
                            have houtsF : outsF = outs ++ ((nid, out) :: Δ) := by
                              rw [hΔ]
                              simp
                            refine ⟨⟨(nid, out) :: Δ, houtsF, by simp [hΔk]⟩, ?_⟩
                            intro n hn2
                            rcases List.mem_cons.mp hn2 with h1 | h1
                            · subst h1
                              refine ⟨sn, k, nt, input, out, hn, hk, hr, ?_, hva, hfn, ?_⟩
                              · rw [houtsF]
                                exact mkInput_append hmk _
                              · rw [houtsF,
                                  lookupOut_append_none (lookupOut_none_of_not_mem hfr) _,
                                  lookupOut, if_pos rfl]
                            · exact hgood n h1

theorem runOrder_transfer {α : Type} (registry : String → Option (NodeType α))
    (g : BGraph) (outsT : List (String × α)) :
    ∀ (ord : List String) (outs : List (String × α)) (evs : List (NodeEvent α)),
      ord.Nodup →
      (∀ n ∈ ord, GoodAt registry g outsT n) →
      (∀ pr n rest, ord = pr ++ n :: rest → ∀ p ∈ g.preds n,
        p ∈ outs.map Prod.fst ∨ p ∈ pr) →
      (∀ p ∈ outs.map Prod.fst, lookupOut outs p = lookupOut outsT p) →
      (∀ n ∈ ord, n ∉ outs.map Prod.fst) →
      ∃ evsN outsF,
        runOrder registry g ord outs evs = (evs ++ evsN, .ok outsF)
        ∧ outsF.map Prod.fst = outs.map Prod.fst ++ ord
        ∧ (∀ p ∈ outsF.map Prod.fst, lookupOut outsF p = lookupOut outsT p) := by
  intro ord
  induction ord with
  | nil =>
    intro outs evs _ _ _ hagree _
    exact ⟨[], outs, by rw [runOrder]; simp, by simp, hagree⟩
  | cons nid rest ih =>
    intro outs evs hnd hGood havail hagree hfresh
    obtain ⟨sn, k, nt, input, out, hn, hk, hr, hmkT, hva, hfn, hlookT⟩ :=
      hGood nid (by simp)
    have hcomb : mkInput outs (g.preds nid) = .ok input := by
      rw [mkInput_congr (fun p hp => ?_), hmkT]
      rcases havail [] nid rest rfl p hp with h1 | h1
      · obtain ⟨v, hv⟩ := lookupOut_mem_some h1
        rw [hv, ← hagree p h1, hv]
      · cases h1
    have hstep : runOrder registry g (nid :: rest) outs evs
        = runOrder registry g rest (outs ++ [(nid, out)])
            (evs ++ [⟨nid, input, out, g.preds nid⟩]) := by
      rw [runOrder]
      simp only [hn, hk, hr, hcomb, hva, hfn]
    have hfr : nid ∉ outs.map Prod.fst := hfresh nid (by simp)
    have hlk : lookupOut (outs ++ [(nid, out)]) nid = some out := by
      rw [lookupOut_append_none (lookupOut_none_of_not_mem hfr) _, lookupOut, if_pos rfl]
    obtain ⟨evsN', outsF, hrun, hkeys, hagreeF⟩ := ih (outs ++ [(nid, out)])
      (evs ++ [⟨nid, input, out, g.preds nid⟩])
      (List.nodup_cons.mp hnd).2
      (fun n hn2 => hGood n (by simp [hn2]))
      (by
        intro pr n' rest' hsplit p hp
        rcases havail (nid :: pr) n' rest' (by rw [hsplit]; rfl) p hp with h1 | h1
        · exact Or.inl (by simp [h1])
        · rcases List.mem_cons.mp h1 with h2 | h2
          · exact Or.inl (by simp [h2])
          · exact Or.inr h2)
      (by
        intro p hp
        simp only [List.map_append, List.map_cons, List.map_nil] at hp
        rcases List.mem_append.mp hp with h1 | h1
        · obtain ⟨v, hv⟩ := lookupOut_mem_some h1
          rw [lookupOut_append_some hv, ← hagree p h1, hv]
        · have hpn : p = nid := by simpa using h1
          subst hpn
          rw [hlk, hlookT]
        )
      (by
        intro n' hn2
        simp only [List.map_append, List.map_cons, List.map_nil]
        intro hm
        rcases List.mem_append.mp hm with h1 | h1
        · exact hfresh n' (by simp [hn2]) h1
        · have : n' = nid := by simpa using h1
          exact (List.nodup_cons.mp hnd).1 (this ▸ hn2))
    refine ⟨⟨nid, input, out, g.preds nid⟩ :: evsN', outsF, ?_, ?_, hagreeF⟩
    · rw [hstep, hrun]
      simp
    · rw [hkeys]
      simp

theorem validateGraph_ok {α : Type} {registry : String → Option (NodeType α)}
    {s : SGraph} {g : BGraph} (h : validateGraph registry s = .ok g) :
    buildGraph s = .ok g ∧ (kahnSort g).2 = [] := by
  rw [validateGraph] at h
  cases hb : buildGraph s with
  | error e => simp only [hb] at h; cases h
  | ok g' =>
      simp only [hb] at h
      by_cases hem : ¬ (kahnSort g').2.isEmpty
      · rw [if_pos hem] at h; cases h
      · rw [if_neg hem] at h
        cases hck : checkKinds registry g' g'.nodes with
        | error e => simp only [hck] at h; cases h
        | ok _ =>
            simp only [hck] at h
            by_cases he1 : g'.nodes.isEmpty
            · rw [if_pos he1] at h; cases h
            · rw [if_neg he1] at h
              by_cases he2 : g'.sinks.isEmpty
              · rw [if_pos he2] at h; cases h
              · rw [if_neg he2] at h
                injection h with h2
                subst h2
                refine ⟨rfl, ?_⟩
                rw [← List.isEmpty_iff]
                simpa using hem

theorem chooseOrder_kahn (g : BGraph) :
    chooseOrder g "kahn"
      = .ok ((kahnSort g).1, "breadth-first topological (Kahn)") := rfl

theorem chooseOrder_dfs (g : BGraph) :
    chooseOrder g "dfs"
      = .ok (dfsOrder g, "depth-first topological (DFS postorder)") := rfl

theorem execute_run_fwd {α : Type} {registry : String → Option (NodeType α)}
    {s : SGraph} {g : BGraph} {strategy : String} {ord : List String} {label : String}
    {evsR : List (NodeEvent α)} {outs : List (String × α)}
    (hv : validateGraph registry s = .ok g)
    (hco : chooseOrder g strategy = .ok (ord, label))
    (hrun : runOrder registry g ord [] [] = (evsR, .ok outs)) :
    execute_simplified_graph registry s strategy
      = (evsR, .ok ⟨ord, outs, g.sources, g.sinks, label⟩) := by
  simp only [execute_simplified_graph, hv, hco, hrun]

theorem execute_run_inv {α : Type} {registry : String → Option (NodeType α)}
    {s : SGraph} {g : BGraph} {strategy : String} {ord : List String} {label : String}
    {evs : List (NodeEvent α)} {res : ExecResultM α}
    (hv : validateGraph registry s = .ok g)
    (hco : chooseOrder g strategy = .ok (ord, label))
    (hex : execute_simplified_graph registry s strategy = (evs, .ok res)) :
    runOrder registry g ord [] [] = (evs, .ok res.outputs)
    ∧ res.order = ord := by
  simp only [execute_simplified_graph, hv, hco] at hex
  rcases hR : runOrder registry g ord [] [] with ⟨evsR, rR⟩
  rw [hR] at hex
  cases rR with
  | error e => simp at hex
  | ok outs =>
      simp only at hex
      injection hex with h1 h2
      injection h2 with h3
      subst h1
      refine ⟨?_, by rw [← h3]⟩
      rw [← h3]

/-- C2.  For every canonical graph the engine validates, the `kahn` order
and the `dfs` order both place the source of every edge before its target;
the two strategies either both succeed or both fail; and when both succeed
they store equal output values at every sink node. -/
theorem C2_strategies_agree {α : Type} (registry : String → Option (NodeType α))
    (s : SGraph) (g : BGraph) (hv : validateGraph registry s = .ok g) :
    (∀ u v, (u, v) ∈ g.edges →
      [u, v].Sublist (kahnSort g).1 ∧ [u, v].Sublist (dfsOrder g))
    ∧ ((∃ evs res, execute_simplified_graph registry s "kahn" = (evs, .ok res))
        ↔ (∃ evs res, execute_simplified_graph registry s "dfs" = (evs, .ok res)))
    ∧ (∀ evK rK evD rD,
        execute_simplified_graph registry s "kahn" = (evK, .ok rK) →
        execute_simplified_graph registry s "dfs" = (evD, .ok rD) →
        rK.order = (kahnSort g).1 ∧ rD.order = dfsOrder g
        ∧ ∀ n ∈ g.sinks, lookupOut rK.outputs n = lookupOut rD.outputs n) := by
  obtain ⟨hb, hacyc⟩ := validateGraph_ok hv
  obtain ⟨hE, hndN, _⟩ := buildGraph_closure hb
  obtain ⟨hKnd, hKcomp, hKsub, hKtopo, hKavail⟩ := kahnOrder_spec g hndN hE hacyc
  have hrank : ∀ e ∈ g.edges,
      posIn (kahnSort g).1 e.1 < posIn (kahnSort g).1 e.2 := by
    intro e he
    obtain ⟨u, v⟩ := e
    exact pair_sublist_posIn hKnd (hKtopo u v he)
  obtain ⟨hDnd, hDcomp, hDsub, hDavail⟩ :=
    dfsOrder_spec g (posIn (kahnSort g).1) hrank hE
  have hDtopo : ∀ u v, (u, v) ∈ g.edges → [u, v].Sublist (dfsOrder g) := by
    intro u v he
    have hvD : v ∈ dfsOrder g := hDcomp v (hE _ he).2
    obtain ⟨pr, t, hsplit⟩ := List.append_of_mem hvD
    have hu : u ∈ pr := hDavail pr v t hsplit u ((mem_preds_iff g u v).mpr he)
    rw [hsplit]
    exact mem_mem_pair_sublist hu (by simp)
  have hKD : ∀ (evsK : List (NodeEvent α)) (outsK : List (String × α)),
      runOrder registry g (kahnSort g).1 [] [] = (evsK, .ok outsK) →
      ∃ evsD outsD, runOrder registry g (dfsOrder g) [] [] = (evsD, .ok outsD)
        ∧ ∀ n ∈ g.nodeIds, lookupOut outsD n = lookupOut outsK n := by
    intro evsK outsK hK
    obtain ⟨_, hGoods⟩ := runOrder_ok_spec registry g _ [] [] evsK outsK hKnd
      (by intro n _ hm; simp at hm) hK
    obtain ⟨evsN, outsD, hrun, hkeys, hagree⟩ := runOrder_transfer registry g outsK
      (dfsOrder g) [] [] hDnd
      (fun n hn => hGoods n (hKcomp n (hDsub n hn)))
      (fun pr n rest hsplit p hp => Or.inr (hDavail pr n rest hsplit p hp))
      (by intro p hp; simp at hp)
      (by intro n _ hm; simp at hm)
    refine ⟨[] ++ evsN, outsD, hrun, ?_⟩
    intro n hn
    apply hagree
    rw [hkeys]
    simp only [List.map_nil, List.nil_append]
    exact hDcomp n hn
  have hDK : ∀ (evsD : List (NodeEvent α)) (outsD : List (String × α)),
      runOrder registry g (dfsOrder g) [] [] = (evsD, .ok outsD) →
      ∃ evsK outsK, runOrder registry g (kahnSort g).1 [] [] = (evsK, .ok outsK)
        ∧ ∀ n ∈ g.nodeIds, lookupOut outsK n = lookupOut outsD n := by
    intro evsD outsD hD
    obtain ⟨_, hGoods⟩ := runOrder_ok_spec registry g _ [] [] evsD outsD hDnd
      (by intro n _ hm; simp at hm) hD
    obtain ⟨evsN, outsK, hrun, hkeys, hagree⟩ := runOrder_transfer registry g outsD
      (kahnSort g).1 [] [] hKnd
      (fun n hn => hGoods n (hDcomp n (hKsub n hn)))
      (fun pr n rest hsplit p hp => Or.inr (hKavail pr n rest hsplit p hp))
      (by intro p hp; simp at hp)
      (by intro n _ hm; simp at hm)
    refine ⟨[] ++ evsN, outsK, hrun, ?_⟩
    intro n hn
    apply hagree
    rw [hkeys]
    simp only [List.map_nil, List.nil_append]
    exact hKcomp n hn
  refine ⟨?_, ?_, ?_⟩
  · intro u v he
    exact ⟨hKtopo u v he, hDtopo u v he⟩
  · constructor
    · rintro ⟨evs, res, hex⟩
      obtain ⟨hrunK, _⟩ := execute_run_inv hv (chooseOrder_kahn g) hex
      obtain ⟨evsD, outsD, hrunD, _⟩ := hKD evs res.outputs hrunK
      exact ⟨evsD, _, execute_run_fwd hv (chooseOrder_dfs g) hrunD⟩
    · rintro ⟨evs, res, hex⟩
      obtain ⟨hrunD, _⟩ := execute_run_inv hv (chooseOrder_dfs g) hex
      obtain ⟨evsK, outsK, hrunK, _⟩ := hDK evs res.outputs hrunD
      exact ⟨evsK, _, execute_run_fwd hv (chooseOrder_kahn g) hrunK⟩
  · intro evK rK evD rD hexK hexD
    obtain ⟨hrunK, hordK⟩ := execute_run_inv hv (chooseOrder_kahn g) hexK
    obtain ⟨hrunD, hordD⟩ := execute_run_inv hv (chooseOrder_dfs g) hexD
    refine ⟨hordK, hordD, ?_⟩
    obtain ⟨evsD, outsD, hrunD2, hagree⟩ := hKD evK rK.outputs hrunK
    have hsame : outsD = rD.outputs := by
      rw [hrunD] at hrunD2
      injection hrunD2 with h1 h2
      injection h2 with h3
      exact h3.symm
    intro n hn
    have hnN : n ∈ g.nodeIds := (List.mem_filter.mp hn).1
    rw [← hsame]
    exact (hagree n hnN).symm

theorem C2_witness :
    validateGraph demoRegistry triGraph = .ok ⟨triGraph.nodes, triGraph.edges⟩
    ∧ ((∀ u v, (u, v) ∈ (⟨triGraph.nodes, triGraph.edges⟩ : BGraph).edges →
          [u, v].Sublist (kahnSort ⟨triGraph.nodes, triGraph.edges⟩).1
          ∧ [u, v].Sublist (dfsOrder ⟨triGraph.nodes, triGraph.edges⟩))
      ∧ ((∃ evs res, execute_simplified_graph demoRegistry triGraph "kahn"
            = (evs, .ok res))
          ↔ (∃ evs res, execute_simplified_graph demoRegistry triGraph "dfs"
            = (evs, .ok res)))
      ∧ (∀ evK rK evD rD,
          execute_simplified_graph demoRegistry triGraph "kahn" = (evK, .ok rK) →
          execute_simplified_graph demoRegistry triGraph "dfs" = (evD, .ok rD) →
          rK.order = (kahnSort ⟨triGraph.nodes, triGraph.edges⟩).1
          ∧ rD.order = dfsOrder ⟨triGraph.nodes, triGraph.edges⟩
          ∧ ∀ n ∈ (⟨triGraph.nodes, triGraph.edges⟩ : BGraph).sinks,
              lookupOut rK.outputs n = lookupOut rD.outputs n)) :=
  ⟨rfl, C2_strategies_agree demoRegistry triGraph ⟨triGraph.nodes, triGraph.edges⟩ rfl⟩

/-- A node kind whose callback always raises. -/
def boomKind : NodeType Unit :=
  { kind := "boom", fn := fun _ _ => .error "boom", min_inputs := 0, max_inputs := none }

def boomRegistry : String → Option (NodeType Unit) :=
  fun k => if k = "boom" then some boomKind else none

/-- A perfectly valid acyclic one-node graph whose only callback raises. -/
def boomGraph : SGraph := ⟨[⟨"a", some "boom", .obj .nil⟩], []⟩

theorem C2_counterexample :
    validateGraph boomRegistry boomGraph = .ok ⟨boomGraph.nodes, []⟩
    ∧ execute_simplified_graph boomRegistry boomGraph "kahn" = ([], .error "boom")
    ∧ execute_simplified_graph boomRegistry boomGraph "dfs" = ([], .error "boom") :=
  ⟨rfl, rfl, rfl⟩
